import Mathlib

/-!
Verification of the lock-free split-ordered hash map and its epoch-based
reclamation (EBR) substrate, shallowly embedded from `src/hashmap.c`,
`src/hashmap.h`, `src/epoch.c` and `src/epoch.h`.

Machine integers (`uint64_t`, `size_t`) are modelled as `Nat` with explicit
`% 2 ^ 64` exactly where the C computation can wrap (the multiplications in
`hash_key` and the final 32-bit rotate of `reverse_bits`).  Pointers are
modelled by allocation identifiers (`Node.id`); the allocator never fails in
the model, matching the non-failing executions of the C code.

The map claims under study are single-threaded (or are settled on their
single-threaded fragment), so the embedding uses the sequential semantics of
the C code: every compare-and-swap succeeds, and consequently a node that
`list_delete` marks is physically unlinked in the same operation, so no
traversal ever encounters a marked node.  Under that semantics the
mark-cleanup branch of `list_find` (hashmap.c:125-138) is dead and the
remaining code of each list primitive is the straight-line scan embedded
below.  Ghost fields (`linked`, `retired`, `freedCb` on the map;
`retEpoch`/`freeEpoch` on the EBR side) record the events the claims talk
about; they do not influence control flow.
-/

namespace LFHM

/-- 2^64, the modulus of `uint64_t` arithmetic. -/
def U64 : Nat := 2 ^ 64

/-- One mask-and-shift swap stage of `reverse_bits` (hashmap.c:58-67).
Each of the first five lines of the C routine is
`x = ((x & m) << s) | ((x >> s) & m)`; the masks clear the top `s` bits
before the left shift, so no stage overflows 64 bits. -/
def rev_stage (m s x : Nat) : Nat := ((x &&& m) <<< s) ||| ((x >>> s) &&& m)

/-- Embeds `reverse_bits` (hashmap.c:58-67).  The last C line
`x = (x << 32) | (x >> 32)` truncates the left shift to `uint64_t`,
hence the explicit `% U64`. -/
def reverse_bits (x : Nat) : Nat :=
  let x1 := rev_stage 0x5555555555555555 1 x
  let x2 := rev_stage 0x3333333333333333 2 x1
  let x3 := rev_stage 0x0F0F0F0F0F0F0F0F 4 x2
  let x4 := rev_stage 0x00FF00FF00FF00FF 8 x3
  let x5 := rev_stage 0x0000FFFF0000FFFF 16 x4
  ((x5 <<< 32) % U64) ||| (x5 >>> 32)

/-- Embeds `hash_key` (hashmap.c:72-80), the splitmix64 finalizer.
The xor-shift steps cannot leave 64 bits; the multiplications wrap. -/
def hash_key (key : Nat) : Nat :=
  let k1 := key ^^^ (key >>> 30)
  let k2 := (k1 * 0xbf58476d1ce4e5b9) % U64
  let k3 := k2 ^^^ (k2 >>> 27)
  let k4 := (k3 * 0x94d049bb133111eb) % U64
  k4 ^^^ (k4 >>> 31)

/-- Embeds `make_so_regular` (hashmap.c:86-89). -/
def make_so_regular (key : Nat) : Nat := reverse_bits (hash_key key) ||| 1

/-- Embeds `make_so_dummy` (hashmap.c:95-98). -/
def make_so_dummy (bucket : Nat) : Nat := reverse_bits bucket

/-- Base-2 logarithm with explicit fuel, extensionally `Nat.log2`
whenever `n < 2 ^ fuel` (`log2_fuel_eq` below); the fuel makes the
recursion structural so that the embedding evaluates by kernel
reduction. -/
def log2_fuel : Nat → Nat → Nat
  | 0, _ => 0
  | f + 1, n => if 2 ≤ n then log2_fuel f (n / 2) + 1 else 0

/-- Embeds `get_parent` (hashmap.c:268-273): clear the highest set bit.
For `bucket > 0` the C value `bucket & ~(1 << (63 - clz(bucket)))` equals
`bucket - 2 ^ log2 bucket`; `bucket` itself is always enough fuel since
`n < 2 ^ n`.  `__builtin_clzl(0)` is undefined in C; every caller guards
`bucket = 0` (bucket 0 is always initialized), and the Lean total
function returns 0 there, which also satisfies the callers' guard
`parent != idx`. -/
def get_parent (bucket : Nat) : Nat := bucket - 2 ^ log2_fuel bucket bucket

/-- Fuel elimination for `log2_fuel`. -/
theorem log2_fuel_eq (f n : Nat) (h : n < 2 ^ f) : log2_fuel f n = Nat.log2 n := by
  induction f generalizing n with
  | zero =>
    have : n = 0 := by simpa using h
    subst this
    rw [log2_fuel, Nat.log2]
    simp
  | succ f ih =>
    rw [log2_fuel, Nat.log2]
    by_cases hn : 2 ≤ n
    · have hdiv : n / 2 < 2 ^ f := by
        have h2 : (2 : Nat) ^ (f + 1) = 2 ^ f * 2 := pow_succ 2 f
        omega
      rw [if_pos hn, if_pos hn, ih (n / 2) hdiv]
    · rw [if_neg hn, if_neg hn]

/-- `get_parent` agrees with the `Nat.log2` phrasing. -/
theorem get_parent_eq (b : Nat) : get_parent b = b - 2 ^ Nat.log2 b := by
  rw [get_parent, log2_fuel_eq b b (Nat.lt_two_pow b)]

/-- A list node, `struct hm_node` (hashmap.h:37-43).  `id` is the ghost
allocation identifier standing for the node's address; `value` is the
atomic `void *` with `none` for NULL. -/
structure Node where
  id : Nat
  key : Nat
  so_key : Nat
  value : Option Nat
  is_dummy : Bool
deriving DecidableEq

/-- Embeds the search loop of `list_find` (hashmap.c:112-153) under the
sequential semantics (no marked nodes): the first node of the scanned
segment whose `so_key` is ≥ the target, if any.  The C function returns
true exactly when that node's `so_key` equals the target. -/
def list_find : List Node → Nat → Option Node
  | [], _ => none
  | x :: xs, t => if t ≤ x.so_key then some x else list_find xs t

/-- Embeds `list_insert` (hashmap.c:177-216) on the scanned segment.
Returns the new segment, the resulting node (`new` or the reused existing
one) and whether the CAS linked the new node (`result == new_node`).
On a same-`so_key` hit: dummies are deduplicated; a same-key regular gets
its value stored; otherwise the node is linked in front of the hit
(hashmap.c:198-214). -/
def list_insert : List Node → Node → List Node × Node × Bool
  | [], n => ([n], n, true)
  | x :: xs, n =>
    if n.so_key ≤ x.so_key then
      if x.so_key = n.so_key then
        if n.is_dummy then (x :: xs, x, false)
        else if ¬x.is_dummy ∧ x.key = n.key then
          ({ x with value := n.value } :: xs, { x with value := n.value }, false)
        else (n :: x :: xs, n, true)
      else (n :: x :: xs, n, true)
    else
      let r := list_insert xs n
      (x :: r.1, r.2.1, r.2.2)

/-- Embeds `list_delete` (hashmap.c:223-258) on the scanned segment:
find the first node with `so_key` ≥ target; absent, a `so_key` mismatch,
a dummy, or a key mismatch return NULL without a change; otherwise the
node is marked and (sequentially, the best-effort CAS succeeding)
unlinked, and its value returned.  The unlinked node is dropped: the C
code has no `epoch_retire` call on this path. -/
def list_delete : List Node → Nat → Nat → Option Nat × List Node
  | [], _, _ => (none, [])
  | x :: xs, t, k =>
    if t ≤ x.so_key then
      if x.so_key = t ∧ ¬x.is_dummy ∧ x.key = k then (x.value, xs)
      else (none, x :: xs)
    else
      let r := list_delete xs t k
      (r.1, x :: r.2)

/-- Embeds the update path of `hashmap_put` (hashmap.c:433-439): the
`list_find` call followed by the exact-key check and the atomic exchange
of the value.  Returns `some (previous value, new segment)` when the
exchange happened, `none` when `hashmap_put` falls through to
`list_insert`. -/
def put_update : List Node → Nat → Nat → Option Nat → Option (Option Nat × List Node)
  | [], _, _, _ => none
  | x :: xs, t, k, v =>
    if t ≤ x.so_key then
      if x.so_key = t ∧ ¬x.is_dummy ∧ x.key = k then
        some (x.value, { x with value := v } :: xs)
      else none
    else
      match put_update xs t k v with
      | some (old, xs') => some (old, x :: xs')
      | none => none

/-- `HASHMAP_INIT_CAP` (hashmap.h:25). -/
def HASHMAP_INIT_CAP : Nat := 16

/-- `HASHMAP_LOAD_FACTOR` (hashmap.h:28). -/
def HASHMAP_LOAD_FACTOR : Nat := 75

/-- The map state, `hashmap_t` (hashmap.h:48-53).  `list` is the global
list including the embedded head sentinel; `buckets` holds the node id a
slot points at (`none` for NULL).  `linked` records ids of regular nodes
whose insertion CAS succeeded, `retired` ids passed to `epoch_retire`,
`freedCb` ids passed to the node free callback — ghost logs for the
memory-safety claims. -/
structure HM where
  list : List Node
  buckets : List (Option Nat)
  cap : Nat
  count : Nat
  nextId : Nat
  linked : List Nat
  retired : List Nat
  freedCb : List Nat
deriving DecidableEq

/-- The embedded head sentinel (hashmap.c:364-368), address id 0. -/
def hm_head : Node := { id := 0, key := 0, so_key := 0, value := none, is_dummy := true }

/-- Embeds `hashmap_create` (hashmap.c:349-377): capacity 16, bucket 0
pointing at the head sentinel. -/
def hashmap_create : HM :=
  { list := [hm_head]
    buckets := some 0 :: List.replicate 15 none
    cap := HASHMAP_INIT_CAP
    count := 0
    nextId := 1
    linked := []
    retired := []
    freedCb := [] }

/-- Index in the global list of the node a bucket slot points at.  A null
slot falls back to the embedded head (hashmap.c:427, 478, 508), which
under the state invariant sits at index 0. -/
def bucket_start (s : HM) (b : Nat) : Nat :=
  match s.buckets.getD b none with
  | some bid => s.list.findIdx (fun n => n.id = bid)
  | none => 0

/-- Body of `initialize_bucket` (hashmap.c:279-306), with the recursion
on the parent bucket made structural through a fuel argument so that the
definition evaluates by kernel reduction.  `init_bucket` below calls it
with fuel `idx + 1`; since `get_parent idx < idx`, the fuel never runs
out (`init_bucket_go_fuel` proves fuel irrelevance), so this is exactly
the C recursion.  The slot store mirrors the C CAS from NULL, which in
the sequential model always finds the slot still NULL. -/
def init_bucket_body (s1 : HM) (idx : Nat) : HM :=
  let dummy : Node :=
    { id := s1.nextId, key := 0, so_key := make_so_dummy idx, value := none, is_dummy := true }
  let r := list_insert (s1.list.drop 1) dummy
  { s1 with
    list := s1.list.take 1 ++ r.1
    nextId := s1.nextId + 1
    buckets :=
      if (s1.buckets.getD idx none).isSome then s1.buckets
      else s1.buckets.set idx (some r.2.1.id) }

def init_bucket_go : Nat → HM → Nat → HM
  | 0, s, _ => s
  | fuel + 1, s, idx =>
    if idx ≥ s.cap then s
    else if (s.buckets.getD idx none).isSome then s
    else
      let parent := get_parent idx
      init_bucket_body (if parent ≠ idx then init_bucket_go fuel s parent else s) idx

/-- Embeds `initialize_bucket` (hashmap.c:279-306): no-op past the
capacity or on an initialized slot; otherwise recursively initialize the
parent, insert a fresh dummy via `list_insert` from the global head
(scanning starts at `head->next`, i.e. after index 0), and CAS the slot
from NULL to the resulting node. -/
def init_bucket (s : HM) (idx : Nat) : HM := init_bucket_go (idx + 1) s idx

/-- For `idx > 0` the parent bucket index is strictly smaller. -/
theorem get_parent_lt (idx : Nat) (h : get_parent idx ≠ idx) : get_parent idx < idx := by
  rw [get_parent_eq] at h ⊢
  have hpos : idx ≠ 0 := by
    intro h0
    exact h (by simp [h0])
  have hle : 2 ^ Nat.log2 idx ≤ idx := Nat.log2_self_le hpos
  have hone : 1 ≤ 2 ^ Nat.log2 idx := Nat.one_le_two_pow
  omega

/-- Fuel irrelevance: any fuel exceeding `idx` computes the same result,
so `init_bucket` satisfies the C recursion verbatim. -/
theorem init_bucket_go_fuel (fuel fuel' : Nat) (s : HM) (idx : Nat)
    (h : idx < fuel) (h' : idx < fuel') :
    init_bucket_go fuel s idx = init_bucket_go fuel' s idx := by
  induction fuel using Nat.strong_induction_on generalizing fuel' idx with
  | _ fuel ih =>
    obtain ⟨a, rfl⟩ : ∃ a, fuel = a + 1 := ⟨fuel - 1, by omega⟩
    obtain ⟨b, rfl⟩ : ∃ b, fuel' = b + 1 := ⟨fuel' - 1, by omega⟩
    by_cases hp : get_parent idx = idx
    · simp only [init_bucket_go]
      simp [hp]
    · have hlt := get_parent_lt idx hp
      simp only [init_bucket_go]
      rw [ih a (by omega) b (get_parent idx) (by omega) (by omega)]

/-- Unfolding law of `init_bucket` in the shape of the C source. -/
theorem init_bucket_eq (s : HM) (idx : Nat) :
    init_bucket s idx =
      if idx ≥ s.cap then s
      else if (s.buckets.getD idx none).isSome then s
      else
        init_bucket_body (if get_parent idx ≠ idx then init_bucket s (get_parent idx) else s)
          idx := by
  show init_bucket_go (idx + 1) s idx = _
  by_cases hp : get_parent idx = idx
  · simp only [init_bucket_go]
    simp [hp]
  · have hlt := get_parent_lt idx hp
    simp only [init_bucket_go]
    rw [show init_bucket s (get_parent idx) =
          init_bucket_go (get_parent idx + 1) s (get_parent idx) from rfl]
    rw [init_bucket_go_fuel idx (get_parent idx + 1) s (get_parent idx) (by omega) (by omega)]

/-- Embeds `maybe_resize` (hashmap.c:312-338): when
`count * 100 ≥ cap * 75`, double the bucket array, copying the old `cap`
slots into the low half of a zeroed array of size `2 * cap` (the CAS
succeeds sequentially; the old array is retired, which the node-level
ghost logs do not track). -/
def maybe_resize (s : HM) : HM :=
  if s.count * 100 < s.cap * HASHMAP_LOAD_FACTOR then s
  else
    { s with
      cap := s.cap * 2
      buckets := s.buckets.take s.cap ++ List.replicate s.cap none }

/-- Embeds `hashmap_put` (hashmap.c:412-461).  Rejects key 0 and NULL
values.  Otherwise: initialize the bucket, scan from the bucket head for
an exact-key node and exchange its value, or link a fresh node via
`list_insert`; a linked node bumps `count` and may trigger a resize. -/
def hashmap_put (s : HM) (key : Nat) (value : Option Nat) : Option Nat × HM :=
  if key = 0 ∨ value = none then (none, s)
  else
    let so_key := make_so_regular key
    let bucket := hash_key key &&& (s.cap - 1)
    let s1 := init_bucket s bucket
    let i := bucket_start s1 bucket
    match put_update (s1.list.drop (i + 1)) so_key key value with
    | some (old, post) => (old, { s1 with list := s1.list.take (i + 1) ++ post })
    | none =>
      let node : Node :=
        { id := s1.nextId, key := key, so_key := so_key, value := value, is_dummy := false }
      let r := list_insert (s1.list.drop (i + 1)) node
      let s2 := { s1 with list := s1.list.take (i + 1) ++ r.1, nextId := s1.nextId + 1 }
      if r.2.2 then
        (none, maybe_resize { s2 with count := s2.count + 1, linked := node.id :: s2.linked })
      else (none, s2)

/-- Embeds `hashmap_get` (hashmap.c:463-492). -/
def hashmap_get (s : HM) (key : Nat) : Option Nat × HM :=
  if key = 0 then (none, s)
  else
    let so_key := make_so_regular key
    let bucket := hash_key key &&& (s.cap - 1)
    let s1 := init_bucket s bucket
    let i := bucket_start s1 bucket
    match list_find (s1.list.drop (i + 1)) so_key with
    | some c =>
      if c.so_key = so_key ∧ ¬c.is_dummy ∧ c.key = key then (c.value, s1) else (none, s1)
    | none => (none, s1)

/-- Embeds `hashmap_remove` (hashmap.c:494-519). -/
def hashmap_remove (s : HM) (key : Nat) : Option Nat × HM :=
  if key = 0 then (none, s)
  else
    let so_key := make_so_regular key
    let bucket := hash_key key &&& (s.cap - 1)
    let s1 := init_bucket s bucket
    let i := bucket_start s1 bucket
    let r := list_delete (s1.list.drop (i + 1)) so_key key
    let s2 := { s1 with list := s1.list.take (i + 1) ++ r.2 }
    match r.1 with
    | some v => (some v, { s2 with count := s2.count - 1 })
    | none => (none, s2)

/-- Embeds `hashmap_count` (hashmap.c:521-524). -/
def hashmap_count (s : HM) : Nat := s.count

/-- A single-threaded public map operation. -/
inductive MapOp where
  | put (key : Nat) (value : Option Nat)
  | get (key : Nat)
  | remove (key : Nat)
deriving DecidableEq

/-- State transformer of one operation (return values discarded). -/
def runOp (s : HM) : MapOp → HM
  | .put k v => (hashmap_put s k v).2
  | .get k => (hashmap_get s k).2
  | .remove k => (hashmap_remove s k).2

/-- The state after a sequence of operations on a fresh map. -/
def runOps (ops : List MapOp) : HM := ops.foldl runOp hashmap_create

/-- A map state reachable by single-threaded put/get/remove from a fresh
map. -/
def Reachable (s : HM) : Prop := ∃ ops, runOps ops = s

end LFHM

namespace EBR

/-- `EPOCH_COUNT` (epoch.h:23). -/
def EPOCH_COUNT : Nat := 3

/-- `EPOCH_MAX_THREADS` (epoch.h:24). -/
def EPOCH_MAX_THREADS : Nat := 64

/-- A record on a retire queue (`struct epoch_node`, epoch.h:44-47),
carrying the ghost annotation `retEpoch`: the global epoch read by
`epoch_retire_slot` when the pointer was enqueued. -/
structure RetireEntry where
  ptr : Nat
  retEpoch : Nat
deriving DecidableEq

/-- Ghost log entry for one invocation of the free callback: the pointer,
the epoch at which it was retired, and the global epoch at the moment the
callback ran. -/
structure FreeRec where
  ptr : Nat
  retEpoch : Nat
  freeEpoch : Nat
deriving DecidableEq

/-- One thread slot (the per-thread part of `epoch_t` as used by
epoch.c: `active`, `epoch`, and three retire queues).  `epoch = none`
encodes the `UINT64_MAX` "not in a critical section" sentinel.  `retire`
has length `EPOCH_COUNT`. -/
structure ESlot where
  active : Bool
  epoch : Option Nat
  retire : List (List RetireEntry)
deriving DecidableEq

/-- The global EBR state (`epoch_t`) plus the ghost log `freed` of free
callback invocations. -/
structure EState where
  global_epoch : Nat
  slots : List ESlot
  freed : List FreeRec
deriving DecidableEq

/-- Drain a queue: the free callback runs on every recorded pointer
(`free_list`, epoch.c:37-45); `g` is the global epoch at that moment. -/
def free_list (g : Nat) (q : List RetireEntry) : List FreeRec :=
  q.map fun en => { ptr := en.ptr, retEpoch := en.retEpoch, freeEpoch := g }

/-- Embeds `epoch_init` (epoch.c:21-35). -/
def epoch_init : EState :=
  { global_epoch := 0
    slots := List.replicate EPOCH_MAX_THREADS { active := false, epoch := some 0, retire := [[], [], []] }
    freed := [] }

/-- An inert inactive slot, used as the default of out-of-range reads
(impossible in the guarded C code). -/
def inertSlot : ESlot := { active := false, epoch := none, retire := [[], [], []] }

/-- Read slot `i` (total; out-of-range reads, impossible in guarded
C code, yield an inert inactive slot). -/
def getSlot (e : EState) (i : Nat) : ESlot :=
  e.slots.getD i inertSlot

/-- The scanning loop of `epoch_register` (epoch.c:60-68): CAS the first
inactive slot to active and store the current global epoch into it. -/
def register_scan : List ESlot → Nat → Option (Nat × List ESlot)
  | [], _ => none
  | sl :: rest, g =>
    if sl.active = false then
      some (0, { sl with active := true, epoch := some g } :: rest)
    else
      match register_scan rest g with
      | some (i, rest') => some (i + 1, sl :: rest')
      | none => none

/-- Embeds `epoch_register` (epoch.c:58-70): the found slot index, or -1
when all slots are active. -/
def epoch_register (e : EState) : Int × EState :=
  match register_scan e.slots e.global_epoch with
  | some (i, slots') => ((i : Int), { e with slots := slots' })
  | none => (-1, e)

/-- Embeds `epoch_unregister` (epoch.c:72-86): reject out-of-range slots,
drain all three retire queues through the free callback, deactivate. -/
def epoch_unregister (e : EState) (slot : Nat) : EState :=
  if EPOCH_MAX_THREADS ≤ slot then e
  else
    let sl := getSlot e slot
    let g := e.global_epoch
    { e with
      freed := e.freed ++ free_list g (sl.retire.getD 0 []) ++ free_list g (sl.retire.getD 1 [])
        ++ free_list g (sl.retire.getD 2 [])
      slots := e.slots.set slot { sl with active := false, retire := [[], [], []] } }

/-- Embeds `epoch_destroy` (epoch.c:47-56): drain every slot's queues. -/
def epoch_destroy (e : EState) : EState :=
  { e with
    freed := e.freed ++ (e.slots.map fun sl =>
      free_list e.global_epoch (sl.retire.getD 0 []) ++ free_list e.global_epoch (sl.retire.getD 1 [])
        ++ free_list e.global_epoch (sl.retire.getD 2 [])).foldl (· ++ ·) []
    slots := e.slots.map fun sl => { sl with retire := [[], [], []] } }

/-- Embeds `try_reclaim` (epoch.c:92-113): after an advance to
`new_epoch`, drain the calling thread's queue of index
`(new_epoch - 2) % 3`, provided `new_epoch ≥ 2` and the thread has a
valid slot (`tls` is the caller's `tls_epoch_slot`).  The C loop over all
threads (epoch.c:98-102) has an empty body. -/
def try_reclaim (e : EState) (tls : Nat) (new_epoch : Nat) : EState :=
  if new_epoch < 2 then e
  else if EPOCH_MAX_THREADS ≤ tls then e
  else
    let safe_idx := (new_epoch - 2) % EPOCH_COUNT
    let sl := getSlot e tls
    { e with
      freed := e.freed ++ free_list e.global_epoch (sl.retire.getD safe_idx [])
      slots := e.slots.set tls { sl with retire := sl.retire.set safe_idx [] } }

/-- Caught-up test of one slot in `epoch_try_advance` (epoch.c:119-125):
a slot blocks the advance iff it is active and its published epoch is a
real value (`≠ UINT64_MAX`) smaller than the global epoch. -/
def caught_up (ge : Nat) (sl : ESlot) : Bool :=
  !sl.active ||
    match sl.epoch with
    | none => true
    | some te => decide (ge ≤ te)

/-- Embeds `epoch_try_advance` (epoch.c:115-133), called by the thread
whose slot is `tls`: if every slot is caught up, bump the global epoch
(the CAS succeeds in the sequential model) and reclaim. -/
def epoch_try_advance (e : EState) (tls : Nat) : EState :=
  let ge := e.global_epoch
  if e.slots.all (caught_up ge) then
    try_reclaim { e with global_epoch := ge + 1 } tls (ge + 1)
  else e

/-- Embeds `epoch_enter` (epoch.c:135-155): publish the observed epoch,
try to advance (the caller's slot doubling as `tls_epoch_slot` for
`try_reclaim`), then drain the caller's own queue of index
`(ge - 2) % 3` when `ge ≥ 2`, where `ge` is the epoch read on entry. -/
def epoch_enter (e : EState) (slot : Nat) : EState :=
  let ge := e.global_epoch
  let e1 := { e with slots := e.slots.set slot { getSlot e slot with epoch := some ge } }
  let e2 := epoch_try_advance e1 slot
  if 2 ≤ ge then
    let safe_idx := (ge - 2) % EPOCH_COUNT
    let sl := getSlot e2 slot
    { e2 with
      freed := e2.freed ++ free_list e2.global_epoch (sl.retire.getD safe_idx [])
      slots := e2.slots.set slot { sl with retire := sl.retire.set safe_idx [] } }
  else e2

/-- Embeds `epoch_exit` (epoch.c:157-161): publish `UINT64_MAX`. -/
def epoch_exit (e : EState) (slot : Nat) : EState :=
  { e with slots := e.slots.set slot { getSlot e slot with epoch := none } }

/-- Embeds `epoch_retire_slot` (epoch.c:168-190): an invalid slot frees
the pointer immediately through the callback; otherwise a record carrying
the pointer is pushed on the slot's queue of index `G % 3`.  (The
allocation of the record never fails in the model.) -/
def epoch_retire_slot (e : EState) (slot : Nat) (ptr : Nat) : EState :=
  if EPOCH_MAX_THREADS ≤ slot then
    { e with
      freed := e.freed ++ [{ ptr := ptr, retEpoch := e.global_epoch, freeEpoch := e.global_epoch }] }
  else
    let sl := getSlot e slot
    let idx := e.global_epoch % EPOCH_COUNT
    { e with
      slots := e.slots.set slot
        { sl with retire := sl.retire.set idx ({ ptr := ptr, retEpoch := e.global_epoch } :: sl.retire.getD idx []) } }

/-- One sequential EBR operation; slot arguments are the calling thread's
`tls_epoch_slot` where the C reads it. -/
inductive EOp where
  | reg
  | unregister (slot : Nat)
  | enter (slot : Nat)
  | exit (slot : Nat)
  | retire (slot : Nat) (ptr : Nat)
  | tryAdvance (slot : Nat)
  | destroy
deriving DecidableEq

/-- State transformer of one EBR operation. -/
def runEOp (e : EState) : EOp → EState
  | .reg => (epoch_register e).2
  | .unregister s => epoch_unregister e s
  | .enter s => epoch_enter e s
  | .exit s => epoch_exit e s
  | .retire s p => epoch_retire_slot e s p
  | .tryAdvance s => epoch_try_advance e s
  | .destroy => epoch_destroy e

/-- The EBR state after a sequence of operations from `epoch_init`. -/
def runEOps (ops : List EOp) : EState := ops.foldl runEOp epoch_init

end EBR

open LFHM EBR

/-! ## Helper lemmas for `epoch_register` (claim C9) -/

/-- A fully active slot list makes the registration scan fail. -/
theorem register_scan_none (l : List ESlot) (g : Nat) (h : ∀ sl ∈ l, sl.active = true) :
    register_scan l g = none := by
  induction l with
  | nil => rfl
  | cons sl rest ih =>
    have ha : sl.active = true := h sl (by simp)
    simp only [register_scan, ha]
    rw [ih fun x hx => h x (by simp [hx])]
    rfl

/-- The registration scan activates exactly the first inactive slot and
stores the given epoch there, leaving every other slot untouched. -/
theorem register_scan_first (l : List ESlot) (g : Nat) (i : Nat)
    (h : l.findIdx? (fun sl => !sl.active) = some i) :
    register_scan l g =
      some (i, l.set i { l.getD i inertSlot with active := true, epoch := some g }) := by
  induction l generalizing i with
  | nil => simp [List.findIdx?] at h
  | cons sl rest ih =>
    by_cases ha : sl.active
    · have h' : rest.findIdx? (fun sl => !sl.active) = some (i - 1) ∧ 1 ≤ i := by
        rw [List.findIdx?_cons] at h
        simp [ha] at h
        obtain ⟨j, hj, rfl⟩ := h
        exact ⟨by simpa using hj, by omega⟩
      obtain ⟨hrest, hi⟩ := h'
      simp only [register_scan, ha]
      rw [ih _ hrest]
      obtain ⟨i, rfl⟩ : ∃ i', i = i' + 1 := ⟨i - 1, by omega⟩
      simp
    · rw [List.findIdx?_cons] at h
      simp [ha] at h
      subst h
      simp [register_scan, ha]

/-! ## Claim theorems: error handling and concrete scenarios -/

/-- C8: for every map state, every value and every key, `put(0, v)`,
`put(k, null)` and `put(0, null)` return null and leave the map (count,
capacity, bucket array, list, ghost logs) entirely unchanged, and
`get(0)` and `remove(0)` likewise return null without side effects. -/
theorem reserved_inputs_rejected (s : HM) (k v : Nat) :
    hashmap_put s 0 (some v) = (none, s) ∧
    hashmap_put s k none = (none, s) ∧
    hashmap_put s 0 none = (none, s) ∧
    hashmap_get s 0 = (none, s) ∧
    hashmap_remove s 0 = (none, s) := by
  refine ⟨?_, ?_, ?_, ?_, ?_⟩ <;> simp [hashmap_put, hashmap_get, hashmap_remove]

/-- C9 (all-full half): when every slot is active, `epoch_register`
returns the failure sentinel -1 and changes nothing; (first-free half):
when `i` is the first index holding an inactive slot, `epoch_register`
returns `i` (a non-negative value) and the poststate differs from the
prestate only at slot `i`, which becomes active with its observed epoch
initialized to the current global epoch. -/
theorem epoch_register_spec (e : EState) :
    ((∀ sl ∈ e.slots, sl.active = true) → epoch_register e = (-1, e)) ∧
    (∀ i, e.slots.findIdx? (fun sl => !sl.active) = some i →
      epoch_register e =
        ((i : Int),
          { e with
            slots :=
              e.slots.set i
                ({ e.slots.getD i inertSlot with
                   active := true, epoch := some e.global_epoch }) })) := by
  constructor
  · intro h
    simp [epoch_register, register_scan_none e.slots e.global_epoch h]
  · intro i hi
    simp [epoch_register, register_scan_first e.slots e.global_epoch i hi]

/-- Witness for C9: on the freshly initialized EBR state, slot 0 is the
first inactive slot, and registration activates it with observed epoch 0
and returns 0. -/
theorem epoch_register_spec_witness :
    epoch_register epoch_init =
      ((0 : Int),
        { epoch_init with
          slots :=
            epoch_init.slots.set 0
              ({ epoch_init.slots.getD 0 inertSlot with
                 active := true, epoch := some 0 }) }) :=
  (epoch_register_spec epoch_init).2 0 (by decide)

/-- C6 (scenario S4): init; register one slot; enter; retire ten
allocations; exit; five enter/exit cycles; the free callback has run
exactly ten times — with no `destroy` in the trace. -/
theorem ebr_basic_scenario_frees_ten :
    (runEOps [.reg, .enter 0,
      .retire 0 100, .retire 0 101, .retire 0 102, .retire 0 103, .retire 0 104,
      .retire 0 105, .retire 0 106, .retire 0 107, .retire 0 108, .retire 0 109,
      .exit 0,
      .enter 0, .exit 0, .enter 0, .exit 0, .enter 0, .exit 0, .enter 0, .exit 0,
      .enter 0, .exit 0]).freed.length = 10 := by decide

/-- The second half of the key pair colliding with key 1 on `so_key`:
`hash_key aliasKey = hash_key 1 XOR 2^63`, so the bit-reversed-or-1
split-order keys agree (and so do the bucket indices, which depend only
on low hash bits). -/
def aliasKey : Nat := 3971391549380807435

/-- C1 fails on the code: keys 1 and `aliasKey` are distinct and nonzero
yet share a split-order key; after `put(1, 10)` then `put(aliasKey, 20)`
on a fresh map, `get(1)` returns null (not 10) because `hashmap_get`
stops at the first node carrying the shared `so_key` without scanning the
rest of the equal-`so_key` run, and after removing both keys the count is
1, not 0 (`remove(1)` also stops at the aliasing node and fails). -/
theorem aliased_keys_are_lost :
    make_so_regular 1 = make_so_regular aliasKey ∧ (1 : Nat) ≠ aliasKey ∧ aliasKey ≠ 0 ∧
    (hashmap_get (runOps [.put 1 (some 10), .put aliasKey (some 20)]) 1).1 = none ∧
    (hashmap_get (runOps [.put 1 (some 10), .put aliasKey (some 20)]) aliasKey).1 = some 20 ∧
    hashmap_count (runOps [.put 1 (some 10), .put aliasKey (some 20),
      .remove 1, .remove aliasKey]) = 1 := by
  refine ⟨by decide, by decide, by decide, by decide, by decide, by decide⟩

/-- C2 fails on the code: after `put(1, 10)` then `remove(1)` on a fresh
map (the single-threaded fragment of the claim), the regular node that
was linked for key 1 has been physically unlinked by `list_delete`'s
unlink CAS, yet it is neither reachable in the list, nor on any retire
queue, nor has it been passed to the free callback — `list_delete`
(hashmap.c:250-256) has no `epoch_retire` call, and the `list_find`
cleanup path cannot cover it because `list_insert` and `list_delete`
invoke `list_find` with a NULL epoch. -/
theorem unlinked_node_never_retired :
    ∃ nid ∈ (runOps [.put 1 (some 10), .remove 1]).linked,
      (∀ n ∈ (runOps [.put 1 (some 10), .remove 1]).list, n.id ≠ nid) ∧
      nid ∉ (runOps [.put 1 (some 10), .remove 1]).retired ∧
      nid ∉ (runOps [.put 1 (some 10), .remove 1]).freedCb := by
  decide

/-- C3 fails as stated: `epoch_unregister` drains the slot's retire
queues immediately, so a pointer retired at global epoch 1 is passed to
the free callback while the global epoch is still 1 < 1 + 2. -/
theorem unregister_frees_before_two_advances :
    ∃ r ∈ (runEOps [.reg, .enter 0, .retire 0 7, .unregister 0]).freed,
      r.freeEpoch < r.retEpoch + 2 := by
  decide

/-! ## Bit-level facts about `reverse_bits`

`reverse_bits` distributes over bitwise or (each stage is built from
`&&&`, `|||`, shifts and a truncation, all of which do), which yields the
split-ordering comparison `reverse_bits (h % 2^j) ≤ reverse_bits h`, and
its lowest output bit is the input's bit 63, which yields the parity of
dummy split-order keys. -/

theorem nat_lor_land_distrib (a b m : Nat) : (a ||| b) &&& m = (a &&& m) ||| (b &&& m) := by
  apply Nat.eq_of_testBit_eq
  intro i
  simp only [Nat.testBit_land, Nat.testBit_lor]
  cases a.testBit i <;> cases b.testBit i <;> cases m.testBit i <;> rfl

theorem nat_lor_shiftLeft (a b s : Nat) : (a ||| b) <<< s = (a <<< s) ||| (b <<< s) := by
  apply Nat.eq_of_testBit_eq
  intro i
  simp only [Nat.testBit_shiftLeft, Nat.testBit_lor]
  cases decide (i ≥ s) <;> simp

theorem nat_lor_shiftRight (a b s : Nat) : (a ||| b) >>> s = (a >>> s) ||| (b >>> s) := by
  apply Nat.eq_of_testBit_eq
  intro i
  simp [Nat.testBit_shiftRight, Nat.testBit_lor]

theorem nat_lor_mod_two_pow (a b n : Nat) : (a ||| b) % 2 ^ n = (a % 2 ^ n) ||| (b % 2 ^ n) := by
  apply Nat.eq_of_testBit_eq
  intro i
  simp only [Nat.testBit_mod_two_pow, Nat.testBit_lor]
  cases decide (i < n) <;> simp

theorem nat_lor_lor_lor (a b c d : Nat) : (a ||| b) ||| (c ||| d) = (a ||| c) ||| (b ||| d) := by
  apply Nat.eq_of_testBit_eq
  intro i
  simp only [Nat.testBit_lor]
  cases a.testBit i <;> cases b.testBit i <;> cases c.testBit i <;> cases d.testBit i <;> rfl

theorem rev_stage_lor (m s a b : Nat) :
    rev_stage m s (a ||| b) = rev_stage m s a ||| rev_stage m s b := by
  simp only [rev_stage, nat_lor_land_distrib, nat_lor_shiftLeft, nat_lor_shiftRight]
  exact nat_lor_lor_lor _ _ _ _

theorem reverse_bits_lor (a b : Nat) :
    reverse_bits (a ||| b) = reverse_bits a ||| reverse_bits b := by
  simp only [reverse_bits, rev_stage_lor, nat_lor_shiftLeft, U64, nat_lor_mod_two_pow,
    nat_lor_shiftRight]
  exact nat_lor_lor_lor _ _ _ _

theorem nat_land_lor_self (a b : Nat) : a &&& (a ||| b) = a := by
  apply Nat.eq_of_testBit_eq
  intro i
  simp only [Nat.testBit_land, Nat.testBit_lor]
  cases a.testBit i <;> cases b.testBit i <;> rfl

theorem nat_le_lor (a b : Nat) : a ≤ a ||| b := by
  conv_lhs => rw [← nat_land_lor_self a b]
  exact Nat.and_le_right

/-- Splitting a number at bit `j`: low part or-ed with the shifted-back
high part. -/
theorem nat_mod_lor_shift (h j : Nat) : (h % 2 ^ j) ||| ((h >>> j) <<< j) = h := by
  apply Nat.eq_of_testBit_eq
  intro i
  simp only [Nat.testBit_mod_two_pow, Nat.testBit_lor, Nat.testBit_shiftLeft,
    Nat.testBit_shiftRight]
  by_cases hij : i < j
  · simp [hij, Nat.not_le.mpr hij]
  · have hj : j + (i - j) = i := by omega
    simp [hij, Nat.not_lt.mp hij, hj, Nat.le_of_not_lt hij]

/-- The split-ordering comparison: reversing the low `j` bits of `h`
never exceeds reversing all of `h`. -/
theorem reverse_bits_mod_le (h j : Nat) : reverse_bits (h % 2 ^ j) ≤ reverse_bits h := by
  conv_rhs => rw [← nat_mod_lor_shift h j, reverse_bits_lor]
  exact nat_le_lor _ _

/-- A high output bit of one swap stage reads the input bit `s` higher,
whenever the mask keeps position `i` and drops position `i - s`. -/
theorem rev_stage_testBit (m s y i j : Nat) (hj : j = s + i)
    (hma : m.testBit i = true) (hmb : m.testBit (i - s) = false) :
    (rev_stage m s y).testBit i = y.testBit j := by
  subst hj
  rw [rev_stage, Nat.testBit_lor, Nat.testBit_shiftLeft, Nat.testBit_land, Nat.testBit_land,
    Nat.testBit_shiftRight, hma, hmb]
  simp

/-- Bit 0 of the reversal is bit 63 of the input. -/
theorem reverse_bits_testBit_zero (x : Nat) : (reverse_bits x).testBit 0 = x.testBit 63 := by
  have key : ∀ y : Nat, (((y <<< 32) % U64) ||| (y >>> 32)).testBit 0 = y.testBit 32 := by
    intro y
    rw [Nat.testBit_lor, U64, Nat.testBit_mod_two_pow, Nat.testBit_shiftLeft,
      Nat.testBit_shiftRight]
    simp
  rw [reverse_bits]
  rw [key]
  rw [rev_stage_testBit 0x0000FFFF0000FFFF 16 _ 32 48 (by norm_num) (by decide) (by decide)]
  rw [rev_stage_testBit 0x00FF00FF00FF00FF 8 _ 48 56 (by norm_num) (by decide) (by decide)]
  rw [rev_stage_testBit 0x0F0F0F0F0F0F0F0F 4 _ 56 60 (by norm_num) (by decide) (by decide)]
  rw [rev_stage_testBit 0x3333333333333333 2 _ 60 62 (by norm_num) (by decide) (by decide)]
  rw [rev_stage_testBit 0x5555555555555555 1 _ 62 63 (by norm_num) (by decide) (by decide)]

/-- A dummy split-order key is even as long as its bucket index is below
2^63 (always, short of a capacity beyond 2^63). -/
theorem make_so_dummy_even (b : Nat) (h : b < 2 ^ 63) : make_so_dummy b % 2 = 0 := by
  have hb : b.testBit 63 = false := by
    apply Nat.testBit_lt_two_pow
    exact h
  have h0 : (reverse_bits b).testBit 0 = false := by
    rw [reverse_bits_testBit_zero, hb]
  rw [make_so_dummy, Nat.mod_two_eq_zero_iff_testBit_zero]
  exact h0

/-- A regular split-order key is always odd. -/
theorem make_so_regular_odd (k : Nat) : make_so_regular k % 2 = 1 := by
  rw [make_so_regular, Nat.mod_two_eq_one_iff_testBit_zero]
  simp [Nat.testBit_lor]

/-! ## Split-order comparisons -/

/-- `hash_key` stays below 2^64. -/
theorem mod_u64_lt (a : Nat) : a % U64 < 2 ^ 64 :=
  Nat.mod_lt _ (by rw [U64]; positivity)

theorem shiftr_mod_u64_lt (a s : Nat) : (a % U64) >>> s < 2 ^ 64 :=
  Nat.lt_of_le_of_lt
    (by rw [Nat.shiftRight_eq_div_pow]; exact Nat.div_le_self _ _)
    (mod_u64_lt a)

theorem hash_key_lt (k : Nat) : hash_key k < 2 ^ 64 := by
  rw [hash_key]
  exact Nat.xor_lt_two_pow (mod_u64_lt _) (shiftr_mod_u64_lt _ _)

/-- An even number below-or-equal an odd number is strictly below it. -/
theorem even_lt_of_le_odd (a b : Nat) (ha : a % 2 = 0) (hb : b % 2 = 1) (h : a ≤ b) :
    a < b := by
  rcases Nat.lt_or_ge a b with h' | h'
  · exact h'
  · omega

/-- The split-order key of any iterated-parent of the bucket of `k`
(`hash_key k % 2^j`, then any further `% 2^u`) sorts strictly below the
split-order key of `k`, as long as the capacity exponent `j` is ≤ 63. -/
theorem anc_so_lt (k j u : Nat) (hj : j ≤ 63) :
    make_so_dummy ((hash_key k % 2 ^ j) % 2 ^ u) < make_so_regular k := by
  have hform : (hash_key k % 2 ^ j) % 2 ^ u = hash_key k % 2 ^ min j u := by
    rcases Nat.le_total u j with hu | hu
    · rw [Nat.min_eq_right hu]
      exact Nat.mod_mod_of_dvd _ (Nat.pow_dvd_pow 2 hu)
    · rw [Nat.min_eq_left hu]
      exact Nat.mod_eq_of_lt
        (Nat.lt_of_lt_of_le (Nat.mod_lt _ (Nat.pos_pow_of_pos j (by norm_num)))
          (Nat.pow_le_pow_right (by norm_num) hu))
  have hlt63 : (hash_key k % 2 ^ j) % 2 ^ u < 2 ^ 63 := by
    have h1 : hash_key k % 2 ^ j < 2 ^ j := Nat.mod_lt _ (Nat.pos_pow_of_pos j (by norm_num))
    have h2 : (hash_key k % 2 ^ j) % 2 ^ u ≤ hash_key k % 2 ^ j := Nat.mod_le _ _
    have h3 : (2 : Nat) ^ j ≤ 2 ^ 63 := Nat.pow_le_pow_right (by norm_num) hj
    omega
  have heven : make_so_dummy ((hash_key k % 2 ^ j) % 2 ^ u) % 2 = 0 :=
    make_so_dummy_even _ hlt63
  have hodd : make_so_regular k % 2 = 1 := make_so_regular_odd k
  apply even_lt_of_le_odd _ _ heven hodd
  calc make_so_dummy ((hash_key k % 2 ^ j) % 2 ^ u)
      = reverse_bits (hash_key k % 2 ^ min j u) := by rw [make_so_dummy, hform]
    _ ≤ reverse_bits (hash_key k) := reverse_bits_mod_le _ _
    _ ≤ reverse_bits (hash_key k) ||| 1 := nat_le_lor _ _
    _ = make_so_regular k := rfl

/-- Specialization `u := j`: the bucket dummy of `k` itself sorts
strictly below `k`'s split-order key. -/
theorem bucket_so_lt (k j : Nat) (hj : j ≤ 63) :
    make_so_dummy (hash_key k % 2 ^ j) < make_so_regular k := by
  have h := anc_so_lt k j j hj
  rwa [Nat.mod_mod_of_dvd _ (dvd_refl _)] at h

/-- `reverse_bits` of a nonzero 64-bit value is nonzero. -/
theorem reverse_bits_pos (x : Nat) (h0 : x ≠ 0) (h64 : x < 2 ^ 64) :
    reverse_bits x ≠ 0 := by
  have ht : ∃ t, x.testBit t = true := by
    by_contra hall
    push_neg at hall
    exact h0 (Nat.eq_of_testBit_eq fun i => by simp [hall i])
  obtain ⟨t, ht⟩ := ht
  have htlt : t < 64 := by
    by_contra hge
    have : 2 ^ t ≤ x := Nat.testBit_implies_ge ht
    have : (2 : Nat) ^ 64 ≤ 2 ^ t := Nat.pow_le_pow_right (by norm_num) (by omega)
    omega
  have hx : x = x ||| 2 ^ t := by
    apply Nat.eq_of_testBit_eq
    intro i
    rw [Nat.testBit_lor]
    by_cases hit : i = t
    · subst hit
      simp [ht]
    · rw [Nat.testBit_two_pow_of_ne (Ne.symm hit)]
      simp
  have hsplit : reverse_bits x = reverse_bits x ||| reverse_bits (2 ^ t) := by
    conv_lhs => rw [hx, reverse_bits_lor]
  have hpos : reverse_bits (2 ^ t) ≠ 0 := by
    interval_cases t <;> decide
  intro hzero
  rw [hsplit] at hzero
  have := nat_le_lor (reverse_bits (2 ^ t)) (reverse_bits x)
  rw [Nat.lor_comm] at this
  omega

/-! ## Segment decomposition of the list primitives

Every primitive scans for the first node with `so_key` ≥ the target `t`.
We factor each of them through the decomposition of the scanned segment
into `lowSeg` (the maximal prefix of nodes with `so_key < t`) and
`highSeg` (the rest): each primitive skips `lowSeg` unchanged and acts on
the head of `highSeg`. -/

/-- Nodes the scan passes over: `so_key` strictly below the target. -/
def below (t : Nat) (x : Node) : Bool := decide (x.so_key < t)

/-- Maximal scanned-over prefix. -/
def lowSeg (l : List Node) (t : Nat) : List Node := l.takeWhile (below t)

/-- Rest of the segment, starting at the first node with `so_key ≥ t`. -/
def highSeg (l : List Node) (t : Nat) : List Node := l.dropWhile (below t)

theorem lowSeg_append_highSeg (l : List Node) (t : Nat) : lowSeg l t ++ highSeg l t = l :=
  List.takeWhile_append_dropWhile ..

theorem mem_lowSeg_lt (l : List Node) (t : Nat) (x : Node) (h : x ∈ lowSeg l t) :
    x.so_key < t := by
  have := List.mem_takeWhile_imp h
  simpa [below] using this

theorem highSeg_head_ge (l : List Node) (t : Nat) (x : Node) (rest : List Node)
    (h : highSeg l t = x :: rest) : t ≤ x.so_key := by
  induction l with
  | nil => simp [highSeg] at h
  | cons y ys ih =>
    rw [highSeg, List.dropWhile_cons] at h
    by_cases hy : y.so_key < t
    · rw [if_pos (by simp [below, hy])] at h
      exact ih h
    · rw [if_neg (by simp [below, hy])] at h
      cases h
      omega

theorem lowSeg_append (pre post : List Node) (t : Nat) (hpre : ∀ x ∈ pre, x.so_key < t) :
    lowSeg (pre ++ post) t = pre ++ lowSeg post t := by
  induction pre with
  | nil => rfl
  | cons y ys ih =>
    rw [List.cons_append, lowSeg, List.takeWhile_cons,
      if_pos (by simp [below]; exact hpre y (by simp))]
    rw [lowSeg] at ih
    rw [ih fun x hx => hpre x (by simp [hx])]
    rfl

theorem highSeg_append (pre post : List Node) (t : Nat) (hpre : ∀ x ∈ pre, x.so_key < t) :
    highSeg (pre ++ post) t = highSeg post t := by
  induction pre with
  | nil => rfl
  | cons y ys ih =>
    rw [List.cons_append, highSeg, List.dropWhile_cons,
      if_pos (by simp [below]; exact hpre y (by simp))]
    rw [highSeg] at ih
    exact ih fun x hx => hpre x (by simp [hx])

/-- On a sorted segment every node of `highSeg` has `so_key ≥ t`. -/
theorem highSeg_all_ge (l : List Node) (t : Nat)
    (hs : l.Pairwise (fun a b => a.so_key ≤ b.so_key)) :
    ∀ x ∈ highSeg l t, t ≤ x.so_key := by
  intro x hx
  match hh : highSeg l t with
  | [] => rw [hh] at hx; simp at hx
  | y :: rest =>
    have hy := highSeg_head_ge l t y rest hh
    rw [hh] at hx
    rcases List.mem_cons.mp hx with rfl | hx'
    · exact hy
    · have hsub : l.Pairwise (fun a b => a.so_key ≤ b.so_key) := hs
      have : (y :: rest).Pairwise (fun a b => a.so_key ≤ b.so_key) := by
        rw [← hh]
        have h1 : highSeg l t <:+ l := List.dropWhile_suffix _
        exact List.Pairwise.sublist h1.sublist hsub
      have := (List.pairwise_cons.mp this).1 x hx'
      omega

/-- `list_find` skips `lowSeg` entirely. -/
theorem list_find_split (l : List Node) (t : Nat) :
    list_find l t = list_find (highSeg l t) t := by
  induction l with
  | nil => rfl
  | cons x xs ih =>
    by_cases hx : t ≤ x.so_key
    · rw [list_find, if_pos hx, highSeg, List.dropWhile_cons,
        if_neg (by simp [below]; omega), list_find, if_pos hx]
    · rw [list_find, if_neg hx, highSeg, List.dropWhile_cons,
        if_pos (by simp [below]; omega)]
      exact ih

/-- `list_delete` returns the head result on `highSeg` and re-attaches
`lowSeg`. -/
theorem list_delete_split (l : List Node) (t k : Nat) :
    list_delete l t k =
      ((list_delete (highSeg l t) t k).1,
        lowSeg l t ++ (list_delete (highSeg l t) t k).2) := by
  induction l with
  | nil => rfl
  | cons x xs ih =>
    by_cases hx : t ≤ x.so_key
    · have hb : below t x = false := by simp [below]; omega
      rw [highSeg, List.dropWhile_cons, if_neg (by rw [hb]; simp), lowSeg, List.takeWhile_cons,
        if_neg (by rw [hb]; simp)]
      simp
    · have hb : below t x = true := by simp [below]; omega
      rw [list_delete, if_neg hx, highSeg, List.dropWhile_cons, if_pos (by rw [hb]),
        lowSeg, List.takeWhile_cons, if_pos (by rw [hb])]
      rw [highSeg, lowSeg] at ih
      rw [ih]
      simp

/-- `put_update` likewise. -/
theorem put_update_split (l : List Node) (t k : Nat) (v : Option Nat) :
    put_update l t k v =
      Option.map (fun p => (p.1, lowSeg l t ++ p.2)) (put_update (highSeg l t) t k v) := by
  induction l with
  | nil => rfl
  | cons x xs ih =>
    by_cases hx : t ≤ x.so_key
    · have hb : below t x = false := by simp [below]; omega
      rw [highSeg, List.dropWhile_cons, if_neg (by rw [hb]; simp), lowSeg, List.takeWhile_cons,
        if_neg (by rw [hb]; simp)]
      simp only [put_update, if_pos hx]
      by_cases hc : x.so_key = t ∧ ¬x.is_dummy = true ∧ x.key = k
      · simp [hc]
      · simp [hc]
    · have hb : below t x = true := by simp [below]; omega
      rw [put_update, if_neg hx, highSeg, List.dropWhile_cons, if_pos (by rw [hb]),
        lowSeg, List.takeWhile_cons, if_pos (by rw [hb])]
      rw [highSeg, lowSeg] at ih
      rw [ih]
      cases put_update (List.dropWhile (below t) xs) t k v with
      | none => rfl
      | some p => rfl

/-- `list_insert` likewise. -/
theorem list_insert_split (l : List Node) (n : Node) :
    list_insert l n =
      (lowSeg l n.so_key ++ (list_insert (highSeg l n.so_key) n).1,
        (list_insert (highSeg l n.so_key) n).2) := by
  induction l with
  | nil => rfl
  | cons x xs ih =>
    by_cases hx : n.so_key ≤ x.so_key
    · have hb : below n.so_key x = false := by simp [below]; omega
      rw [highSeg, List.dropWhile_cons, if_neg (by rw [hb]; simp), lowSeg, List.takeWhile_cons,
        if_neg (by rw [hb]; simp)]
      simp
    · have hb : below n.so_key x = true := by simp [below]; omega
      rw [list_insert, if_neg hx, highSeg, List.dropWhile_cons, if_pos (by rw [hb]),
        lowSeg, List.takeWhile_cons, if_pos (by rw [hb])]
      rw [highSeg, lowSeg] at ih
      rw [ih]
      simp

/-! ## The state invariant -/

/-- Sortedness relation of the global list (spec: non-decreasing
`so_key`s). -/
def soLe (a b : Node) : Prop := a.so_key ≤ b.so_key

/-- Neighbouring nodes of an equal-`so_key` run are regular and carry
distinct keys (dummies never share a `so_key`, and the same key never
occupies two adjacent nodes). -/
def adjOK (a b : Node) : Prop :=
  a.so_key = b.so_key → a.is_dummy = false ∧ b.is_dummy = false ∧ a.key ≠ b.key

/-- Invariant of reachable map states (single-threaded semantics). -/
structure MapInv (s : HM) : Prop where
  head_first : s.list.head? = some hm_head
  sorted : s.list.Pairwise soLe
  adj : s.list.Chain' adjOK
  so_dummy : ∀ n ∈ s.list, n.is_dummy = true → ∃ b, b < s.cap ∧ n.so_key = make_so_dummy b
  so_regular : ∀ n ∈ s.list, n.is_dummy = false →
    n.so_key = make_so_regular n.key ∧ n.key ≠ 0 ∧ n.value ≠ none
  ids_nodup : (s.list.map Node.id).Nodup
  ids_lt : ∀ n ∈ s.list, n.id < s.nextId
  buckets_len : s.buckets.length = s.cap
  bucket0 : s.buckets.getD 0 none = some 0
  bucket_dummy : ∀ b i, s.buckets.getD b none = some i →
    ∃ n ∈ s.list, n.id = i ∧ n.is_dummy = true ∧ n.so_key = make_so_dummy b
  cap_pow : ∃ j, 4 ≤ j ∧ s.cap = 2 ^ j
  count_eq : s.count = (s.list.filter fun n => n.is_dummy = false).length

/-- The fresh map satisfies the invariant. -/
theorem inv_create : MapInv hashmap_create := by
  refine ⟨rfl, ?_, ?_, ?_, ?_, ?_, ?_, by decide, rfl, ?_, ⟨4, by omega, by decide⟩, by decide⟩
  · simp [hashmap_create]
  · simp [hashmap_create]
  · intro n hn hd
    simp [hashmap_create] at hn
    subst hn
    exact ⟨0, by decide, by decide⟩
  · intro n hn hd
    simp [hashmap_create] at hn
    subst hn
    simp [hm_head] at hd
  · simp [hashmap_create]
  · intro n hn
    simp [hashmap_create] at hn
    subst hn
    decide
  · intro b i h
    match b with
    | 0 =>
      have hi : i = 0 := by
        have : some (0 : Nat) = some i := h
        exact (Option.some_injective _ this).symm
      subst hi
      exact ⟨hm_head, by simp [hashmap_create], rfl, rfl, by decide⟩
    | m + 1 =>
      exfalso
      have h' : (List.replicate 15 (none : Option Nat)).getD m none = some i := h
      rcases Nat.lt_or_ge m 15 with hm | hm
      · rw [List.getD_eq_getElem?_getD, List.getElem?_replicate, if_pos hm] at h'
        simp at h'
      · rw [List.getD_eq_getElem?_getD, List.getElem?_replicate, if_neg (by omega)] at h'
        simp at h'

/-! ## Support lemmas for the invariant proofs -/

theorem highSeg_cons_of_lt (x : Node) (xs : List Node) (t : Nat) (h : x.so_key < t) :
    highSeg (x :: xs) t = highSeg xs t := by
  rw [highSeg, List.dropWhile_cons, if_pos (by simp [below]; omega)]
  rfl

theorem highSeg_cons_of_ge (x : Node) (xs : List Node) (t : Nat) (h : t ≤ x.so_key) :
    highSeg (x :: xs) t = x :: xs := by
  rw [highSeg, List.dropWhile_cons, if_neg (by simp [below]; omega)]

theorem lowSeg_cons_of_lt (x : Node) (xs : List Node) (t : Nat) (h : x.so_key < t) :
    lowSeg (x :: xs) t = x :: lowSeg xs t := by
  rw [lowSeg, List.takeWhile_cons, if_pos (by simp [below]; omega)]
  rfl

theorem lowSeg_cons_of_ge (x : Node) (xs : List Node) (t : Nat) (h : t ≤ x.so_key) :
    lowSeg (x :: xs) t = [] := by
  rw [lowSeg, List.takeWhile_cons, if_neg (by simp [below]; omega)]

/-- Dropping below a lower threshold first does not change a `highSeg`. -/
theorem highSeg_highSeg (l : List Node) (a t : Nat) (h : a ≤ t) :
    highSeg (highSeg l a) t = highSeg l t := by
  induction l with
  | nil => rfl
  | cons x xs ih =>
    by_cases hx : x.so_key < a
    · rw [highSeg_cons_of_lt x xs a hx, highSeg_cons_of_lt x xs t (by omega)]
      exact ih
    · rw [highSeg_cons_of_ge x xs a (by omega)]

/-- Gluing a sorted prefix, a boundary node and a sorted suffix. -/
theorem pairwise_glue (A B : List Node) (n : Node)
    (hA : A.Pairwise soLe) (hB : B.Pairwise soLe)
    (hAn : ∀ a ∈ A, a.so_key ≤ n.so_key) (hnB : ∀ b ∈ B, n.so_key ≤ b.so_key) :
    (A ++ n :: B).Pairwise soLe := by
  rw [List.pairwise_append]
  refine ⟨hA, ?_, ?_⟩
  · rw [List.pairwise_cons]
    exact ⟨hnB, hB⟩
  · intro a ha b hb
    rcases List.mem_cons.mp hb with rfl | hb'
    · exact hAn a ha
    · have h1 := hAn a ha
      have h2 := hnB b hb'
      exact Nat.le_trans h1 h2

/-- Gluing for the adjacency relation: only the two boundary pairs are
new. -/
theorem chain'_glue (A B : List Node) (n : Node)
    (hA : A.Chain' adjOK) (hB : B.Chain' adjOK)
    (hlast : ∀ a, A.getLast? = some a → adjOK a n)
    (hhead : ∀ b, B.head? = some b → adjOK n b) :
    (A ++ n :: B).Chain' adjOK := by
  rw [List.chain'_append]
  refine ⟨hA, ?_, ?_⟩
  · rw [List.chain'_cons']
    exact ⟨fun y hy => hhead y hy, hB⟩
  · intro x hx y hy
    have : y = n := by simp at hy; exact hy.symm
    subst this
    exact hlast x hx

/-- Chain gluing for plain concatenation (deletion shape). -/
theorem chain'_glue_append (A B : List Node)
    (hA : A.Chain' adjOK) (hB : B.Chain' adjOK)
    (hcross : ∀ a, A.getLast? = some a → ∀ b, B.head? = some b → adjOK a b) :
    (A ++ B).Chain' adjOK := by
  rw [List.chain'_append]
  exact ⟨hA, hB, fun a ha b hb => hcross a ha b hb⟩

/-- Sorted gluing for plain concatenation. -/
theorem pairwise_glue_append (A B : List Node)
    (hA : A.Pairwise soLe) (hB : B.Pairwise soLe)
    (hcross : ∀ a ∈ A, ∀ b ∈ B, a.so_key ≤ b.so_key) :
    (A ++ B).Pairwise soLe := by
  rw [List.pairwise_append]
  exact ⟨hA, hB, hcross⟩

/-- `lowSeg` is an initial segment of its list. -/
theorem lowSeg_isPre (l : List Node) (t : Nat) : lowSeg l t <+: l :=
  List.takeWhile_prefix _

/-- The adjacency chain restricts to initial segments. -/
theorem chain_of_pre (l1 l2 : List Node) (h : l1 <+: l2) (hc : l2.Chain' adjOK) :
    l1.Chain' adjOK :=
  List.Chain'.prefix hc h

/-- In an invariant state with capacity ≤ 2^63, every dummy's `so_key`
is even and every regular node's is odd. -/
theorem inv_parity (s : HM) (hInv : MapInv s) (hcap : s.cap ≤ 2 ^ 63) :
    ∀ n ∈ s.list, (n.is_dummy = true → n.so_key % 2 = 0) ∧
      (n.is_dummy = false → n.so_key % 2 = 1) := by
  intro n hn
  constructor
  · intro hd
    obtain ⟨b, hb, hso⟩ := hInv.so_dummy n hn hd
    rw [hso]
    exact make_so_dummy_even b (by omega)
  · intro hd
    rw [(hInv.so_regular n hn hd).1]
    exact make_so_regular_odd _

/-- When bucket `b`'s slot is set, `bucket_start` locates its dummy in
the global list, and everything up to and including that position sorts
at or below the dummy's split-order key. -/
theorem bucket_pre (s : HM) (hInv : MapInv s) (b i : Nat)
    (hslot : s.buckets.getD b none = some i) :
    bucket_start s b < s.list.length ∧
    ∀ x ∈ s.list.take (bucket_start s b + 1), x.so_key ≤ make_so_dummy b := by
  obtain ⟨n, hn, hnid, hnd, hnso⟩ := hInv.bucket_dummy b i hslot
  have hbs : bucket_start s b = s.list.findIdx (fun nd => nd.id = i) := by
    rw [bucket_start, hslot]
  have hex : ∃ x ∈ s.list, (fun nd => decide (nd.id = i)) x = true :=
    ⟨n, hn, by simp [hnid]⟩
  have hlt : s.list.findIdx (fun nd => nd.id = i) < s.list.length :=
    List.findIdx_lt_length_of_exists hex
  have hfound : (s.list.get ⟨s.list.findIdx (fun nd => nd.id = i), hlt⟩).id = i := by
    have hfi := @List.findIdx_get _ (fun nd => decide (nd.id = i)) s.list hlt
    simpa using hfi
  have hfmem : s.list.get ⟨s.list.findIdx (fun nd => nd.id = i), hlt⟩ ∈ s.list :=
    s.list.get_mem _ hlt
  have hfeq : s.list.get ⟨s.list.findIdx (fun nd => nd.id = i), hlt⟩ = n := by
    apply List.inj_on_of_nodup_map hInv.ids_nodup hfmem hn
    rw [hfound, hnid]
  constructor
  · rw [hbs]; exact hlt
  · intro x hx
    rw [hbs] at hx
    obtain ⟨j, hjlen, hxj⟩ := List.mem_iff_getElem.mp hx
    have hjb : j < s.list.length ∧ j ≤ s.list.findIdx (fun nd => nd.id = i) := by
      simp [List.length_take] at hjlen
      omega
    have hxval : x = s.list.get ⟨j, hjb.1⟩ := by
      rw [← hxj]
      simp only [List.get_eq_getElem]
      exact List.getElem_take _
    rcases Nat.eq_or_lt_of_le hjb.2 with heq | hlt2
    · rw [hxval]
      have hgn : s.list.get ⟨j, hjb.1⟩ = n := by
        have hcast : s.list.get ⟨j, hjb.1⟩
            = s.list.get ⟨s.list.findIdx (fun nd => nd.id = i), hlt⟩ := by
          congr 1
          exact Fin.ext heq
        rw [hcast, hfeq]
      rw [hgn, hnso]
    · have hs := List.pairwise_iff_getElem.mp hInv.sorted j
        (s.list.findIdx (fun nd => nd.id = i)) hjb.1 hlt hlt2
      rw [hxval]
      have hso : (s.list.get ⟨s.list.findIdx (fun nd => nd.id = i), hlt⟩).so_key
          = make_so_dummy b := by
        rw [hfeq, hnso]
      rw [← hso]
      simp only [List.get_eq_getElem]
      exact hs

/-! ## Effect of `initialize_bucket` -/

/-- Inserting a dummy into a sorted, parity-correct segment either
deduplicates against the unique existing dummy of that `so_key` or links
the new dummy at the boundary of its `lowSeg`/`highSeg` split. -/
theorem insert_dummy_cases (tl : List Node) (d : Node) (hd : d.is_dummy = true)
    (hall : ∀ x ∈ tl, x.is_dummy = false → x.so_key % 2 = 1)
    (hde : d.so_key % 2 = 0) :
    (∃ x rest, highSeg tl d.so_key = x :: rest ∧ x.so_key = d.so_key ∧ x.is_dummy = true ∧
      list_insert tl d = (tl, x, false)) ∨
    (list_insert tl d = (lowSeg tl d.so_key ++ d :: highSeg tl d.so_key, d, true) ∧
      ∀ x rest, highSeg tl d.so_key = x :: rest → d.so_key < x.so_key) := by
  rw [list_insert_split]
  match hh : highSeg tl d.so_key with
  | [] =>
    right
    refine ⟨rfl, fun x rest hxr => ?_⟩
    simp at hxr
  | x :: rest =>
    have hge : d.so_key ≤ x.so_key := highSeg_head_ge tl d.so_key x rest hh
    have hxmem : x ∈ tl := (List.dropWhile_suffix (below d.so_key)).subset
      (by rw [show List.dropWhile (below d.so_key) tl = x :: rest from hh]; simp)
    rcases Nat.eq_or_lt_of_le hge with heq | hlt
    · left
      have hxd : x.is_dummy = true := by
        by_contra hxd
        have := hall x hxmem (by revert hxd; cases x.is_dummy <;> simp)
        omega
      refine ⟨x, rest, rfl, heq.symm, hxd, ?_⟩
      rw [list_insert, if_pos (by omega), if_pos (by omega), if_pos hd]
      have hconv : lowSeg tl d.so_key ++ x :: rest = tl := by
        conv_rhs => rw [← lowSeg_append_highSeg tl d.so_key, hh]
      rw [hconv]
    · right
      refine ⟨?_, fun x' rest' hxr' => ?_⟩
      · rw [list_insert, if_pos (by omega), if_neg (by omega)]
      · cases hxr'
        omega

/-- A `getLast?` witness is a member. -/
theorem getLast?_mem_list (l : List Node) (a : Node) (h : l.getLast? = some a) : a ∈ l := by
  have hx : a ∈ l.getLast? := by rw [h]; rfl
  obtain ⟨hne, heq⟩ := List.mem_getLast?_eq_getLast hx
  rw [heq]
  exact List.getLast_mem hne

/-- Full effect of the dummy allocation and insertion performed by the
body of `initialize_bucket`: the resulting node is a dummy of the right
`so_key` living in the new list, the invariant's list clauses carry
over, the regular-node count is unchanged, and every `highSeg` above the
new dummy's `so_key` is untouched. -/
theorem insert_dummy_spec (s1 : HM) (hInv : MapInv s1) (idx : Nat)
    (hidx : idx < s1.cap) (hcap : s1.cap ≤ 2 ^ 63) (hidx0 : idx ≠ 0)
    (d : Node) (r : List Node × Node × Bool) (L' : List Node)
    (hd : d = { id := s1.nextId, key := 0, so_key := make_so_dummy idx, value := none,
                is_dummy := true })
    (hr : r = list_insert (s1.list.drop 1) d)
    (hL : L' = s1.list.take 1 ++ r.1) :
    (r.2.1 ∈ L' ∧ r.2.1.is_dummy = true ∧ r.2.1.so_key = make_so_dummy idx) ∧
    (∀ n ∈ s1.list, n ∈ L') ∧
    (∀ n ∈ L', n ∈ s1.list ∨ n = d) ∧
    L'.head? = some hm_head ∧
    L'.Pairwise soLe ∧
    L'.Chain' adjOK ∧
    (L'.map Node.id).Nodup ∧
    (∀ n ∈ L', n.id < s1.nextId + 1) ∧
    (L'.filter fun n => n.is_dummy = false).length
      = (s1.list.filter fun n => n.is_dummy = false).length ∧
    (∀ T, make_so_dummy idx < T → highSeg L' T = highSeg s1.list T) := by
  obtain ⟨tl, htl⟩ : ∃ tl, s1.list = hm_head :: tl := by
    have hh := hInv.head_first
    match hc : s1.list with
    | [] => rw [hc] at hh; simp at hh
    | y :: ys =>
      rw [hc] at hh
      simp at hh
      exact ⟨ys, by rw [hh]⟩
  have hdrop : s1.list.drop 1 = tl := by rw [htl]; rfl
  have htake : s1.list.take 1 = [hm_head] := by rw [htl]; rfl
  have hidx64 : idx < 2 ^ 64 := by
    have : (2 : Nat) ^ 63 < 2 ^ 64 := by norm_num
    omega
  have hsig0 : make_so_dummy idx ≠ 0 := reverse_bits_pos idx hidx0 hidx64
  have hsige : make_so_dummy idx % 2 = 0 := make_so_dummy_even idx (by omega)
  have htl_sorted : tl.Pairwise soLe := by
    have := hInv.sorted
    rw [htl, List.pairwise_cons] at this
    exact this.2
  have htl_chain : tl.Chain' adjOK := by
    have := hInv.adj
    rw [htl] at this
    exact this.tail
  have htl_mem : ∀ x ∈ tl, x ∈ s1.list := fun x hx => by rw [htl]; simp [hx]
  have htl_parity : ∀ x ∈ tl, x.is_dummy = false → x.so_key % 2 = 1 := by
    intro x hx hxd
    exact ((hInv.so_regular x (htl_mem x hx) hxd).1 ▸ make_so_regular_odd x.key)
  have hdso : d.so_key = make_so_dummy idx := by rw [hd]
  have hddum : d.is_dummy = true := by rw [hd]
  have hdid : d.id = s1.nextId := by rw [hd]
  have hcases := insert_dummy_cases tl d hddum htl_parity
    (by rw [hdso]; exact hsige)
  rw [hdso] at hcases
  rcases hcases with ⟨x, rest, hhigh, hxso, hxd, hins⟩ | ⟨hins, hstrict⟩
  · -- dedupe: the list is unchanged and the existing dummy is returned
    have hr' : r = (tl, x, false) := by rw [hr, hdrop, hins]
    have hL' : L' = s1.list := by rw [hL, hr', htake, htl]; rfl
    have hxmem : x ∈ s1.list := htl_mem x ((List.dropWhile_suffix _).subset
      (by rw [show List.dropWhile (below (make_so_dummy idx)) tl = x :: rest from hhigh]
          simp))
    refine ⟨⟨by rw [hr', hL']; exact hxmem, by rw [hr']; exact hxd, by rw [hr']; exact hxso⟩,
      ?_, ?_, ?_, ?_, ?_, ?_, ?_, ?_, ?_⟩
    · intro n hn; rw [hL']; exact hn
    · intro n hn; rw [hL'] at hn; exact Or.inl hn
    · rw [hL']; exact hInv.head_first
    · rw [hL']; exact hInv.sorted
    · rw [hL']; exact hInv.adj
    · rw [hL']; exact hInv.ids_nodup
    · intro n hn; rw [hL'] at hn; exact Nat.lt_succ_of_lt (hInv.ids_lt n hn)
    · rw [hL']
    · intro T hT; rw [hL']
  · -- link: the dummy is spliced at its boundary
    have hr' : r = (lowSeg tl (make_so_dummy idx) ++ d :: highSeg tl (make_so_dummy idx),
        d, true) := by
      rw [hr, hdrop, hins]
    have hL' : L' = hm_head :: (lowSeg tl (make_so_dummy idx)
        ++ d :: highSeg tl (make_so_dummy idx)) := by
      rw [hL, hr', htake]
      rfl
    have hAmem : ∀ a ∈ lowSeg tl (make_so_dummy idx), a ∈ tl :=
      fun a ha => (lowSeg_isPre _ _).subset ha
    have hBmem : ∀ b ∈ highSeg tl (make_so_dummy idx), b ∈ tl :=
      fun b hb => (List.dropWhile_suffix _).subset hb
    have hAlt : ∀ a ∈ lowSeg tl (make_so_dummy idx), a.so_key < make_so_dummy idx :=
      fun a ha => mem_lowSeg_lt tl _ a ha
    have hBge : ∀ b ∈ highSeg tl (make_so_dummy idx), make_so_dummy idx ≤ b.so_key :=
      highSeg_all_ge tl _ htl_sorted
    have htl_eq : lowSeg tl (make_so_dummy idx) ++ highSeg tl (make_so_dummy idx) = tl :=
      lowSeg_append_highSeg tl _
    have hmem2 : ∀ n ∈ s1.list, n ∈ L' := by
      intro n hn
      rw [htl] at hn
      rw [hL']
      rcases List.mem_cons.mp hn with rfl | hn'
      · simp
      · rw [← htl_eq] at hn'
        rcases List.mem_append.mp hn' with ha | hb
        · simp [ha]
        · simp [hb]
    have hmem3 : ∀ n ∈ L', n ∈ s1.list ∨ n = d := by
      intro n hn
      rw [hL'] at hn
      rcases List.mem_cons.mp hn with rfl | hn'
      · exact Or.inl (by rw [htl]; simp)
      · rcases List.mem_append.mp hn' with ha | hb
        · exact Or.inl (htl_mem n (hAmem n ha))
        · rcases List.mem_cons.mp hb with rfl | hb'
          · exact Or.inr rfl
          · exact Or.inl (htl_mem n (hBmem n hb'))
    refine ⟨⟨by rw [hr', hL']; simp, by rw [hr']; exact hddum, by rw [hr']; exact hdso⟩,
      hmem2, hmem3, by rw [hL']; rfl, ?_, ?_, ?_, ?_, ?_, ?_⟩
    · rw [hL', List.pairwise_cons]
      refine ⟨?_, ?_⟩
      · intro y _
        show hm_head.so_key ≤ y.so_key
        simp [hm_head]
      · apply pairwise_glue
        · exact List.Pairwise.sublist (lowSeg_isPre _ _).sublist htl_sorted
        · exact List.Pairwise.sublist (List.dropWhile_suffix _).sublist htl_sorted
        · intro a ha; rw [hdso]; exact Nat.le_of_lt (hAlt a ha)
        · intro b hb; rw [hdso]; exact hBge b hb
    · rw [hL', List.chain'_cons']
      refine ⟨?_, ?_⟩
      · intro y hy
        rcases hA : lowSeg tl (make_so_dummy idx) with _ | ⟨a, A'⟩
        · rw [hA] at hy
          simp at hy
          subst hy
          intro heq
          exfalso
          rw [hdso] at heq
          exact hsig0 (by simpa [hm_head] using heq.symm)
        · rw [hA] at hy
          simp at hy
          subst hy
          have hfirst : tl.head? = some a := by
            rw [← htl_eq, hA]
            rfl
          have hchain := hInv.adj
          rw [htl] at hchain
          rcases htlc : tl with _ | ⟨t0, tl'⟩
          · rw [htlc] at hfirst; simp at hfirst
          · rw [htlc] at hfirst
            simp at hfirst
            rw [htlc] at hchain
            rw [← hfirst]
            exact (List.chain'_cons.mp hchain).1
      · apply chain'_glue
        · exact chain_of_pre _ _ (lowSeg_isPre _ _) htl_chain
        · exact htl_chain.suffix (List.dropWhile_suffix _)
        · intro a ha heq
          exfalso
          have hmem := getLast?_mem_list _ a ha
          have := hAlt a hmem
          rw [hdso] at heq
          omega
        · intro b hb heq
          exfalso
          rcases hB : highSeg tl (make_so_dummy idx) with _ | ⟨b0, B'⟩
          · rw [hB] at hb; simp at hb
          · rw [hB] at hb
            simp at hb
            have := hstrict b0 B' hB
            rw [hdso, ← hb] at heq
            omega
    · have hperm : (L'.map Node.id).Perm (d.id :: s1.list.map Node.id) := by
        rw [hL', htl]
        conv_rhs => rw [← htl_eq]
        simp only [List.map_cons, List.map_append]
        exact List.Perm.trans (List.Perm.cons _ List.perm_middle) (List.Perm.swap _ _ _)
      rw [List.Perm.nodup_iff hperm]
      refine List.nodup_cons.mpr ⟨?_, hInv.ids_nodup⟩
      intro hmemid
      obtain ⟨n, hn, hidn⟩ := List.mem_map.mp hmemid
      have := hInv.ids_lt n hn
      rw [hdid] at hidn
      omega
    · intro n hn
      rcases hmem3 n hn with hns | rfl
      · exact Nat.lt_succ_of_lt (hInv.ids_lt n hns)
      · rw [hdid]
        omega
    · rw [hL', htl]
      conv_rhs => rw [← htl_eq]
      simp [List.filter_cons, List.filter_append, hd, hm_head]
    · intro T hT
      have hhead_lt : hm_head.so_key < T := by simp [hm_head]; omega
      rw [hL', htl, highSeg_cons_of_lt _ _ _ hhead_lt, highSeg_cons_of_lt _ _ _ hhead_lt]
      have hassoc : lowSeg tl (make_so_dummy idx) ++ d :: highSeg tl (make_so_dummy idx)
          = (lowSeg tl (make_so_dummy idx) ++ [d]) ++ highSeg tl (make_so_dummy idx) := by
        simp
      have hpre : ∀ x ∈ lowSeg tl (make_so_dummy idx) ++ [d], x.so_key < T := by
        intro x hx
        rcases List.mem_append.mp hx with ha | hb
        · have := hAlt x ha
          omega
        · have hxd2 : x = d := by simpa using hb
          rw [hxd2, hdso]
          omega
      rw [hassoc, highSeg_append _ _ _ hpre, highSeg_highSeg tl _ T (by omega)]

/-- Bound usable along the whole `get_parent` ancestor chain of `idx`:
the target `T` exceeds the dummy `so_key` of `idx` and of every
truncation `idx % 2^u` (the ancestors all have this shape). -/
def anc_ok (idx T : Nat) : Prop :=
  make_so_dummy idx < T ∧ ∀ u, make_so_dummy (idx % 2 ^ u) < T

/-- For positive `idx`, `get_parent` is truncation at the top bit. -/
theorem get_parent_mod (idx : Nat) (hne : idx ≠ 0) :
    get_parent idx = idx % 2 ^ Nat.log2 idx := by
  rw [get_parent_eq]
  have hle : 2 ^ Nat.log2 idx ≤ idx := Nat.log2_self_le hne
  have hlt : idx < 2 ^ (Nat.log2 idx + 1) := by
    rw [Nat.log2_eq_log_two]
    exact Nat.lt_pow_succ_log_self (by norm_num) idx
  have hpow : (2 : Nat) ^ (Nat.log2 idx + 1) = 2 ^ Nat.log2 idx * 2 := pow_succ 2 _
  rw [Nat.mod_eq_sub_mod hle, Nat.mod_eq_of_lt (by omega)]

/-- `anc_ok` descends to the parent bucket. -/
theorem anc_ok_parent (idx T : Nat) (h : anc_ok idx T) : anc_ok (get_parent idx) T := by
  rcases eq_or_ne idx 0 with rfl | hne
  · have h0 : get_parent 0 = 0 := rfl
    rw [h0]
    exact h
  · rw [get_parent_mod idx hne]
    constructor
    · exact h.2 (Nat.log2 idx)
    · intro u
      rcases le_total u (Nat.log2 idx) with hu | hu
      · rw [Nat.mod_mod_of_dvd _ (Nat.pow_dvd_pow 2 hu)]
        exact h.2 u
      · rw [Nat.mod_eq_of_lt (Nat.lt_of_lt_of_le
          (Nat.mod_lt _ (Nat.pos_pow_of_pos _ (by norm_num)))
          (Nat.pow_le_pow_right (by norm_num) hu))]
        exact h.2 (Nat.log2 idx)

theorem getD_set_self (l : List (Option Nat)) (i : Nat) (v : Option Nat) (h : i < l.length) :
    (l.set i v).getD i none = v := by
  rw [List.getD_eq_getElem?_getD, List.getElem?_set_self']
  simp [h]

theorem getD_set_ne (l : List (Option Nat)) (i j : Nat) (v : Option Nat) (h : j ≠ i) :
    (l.set i v).getD j none = l.getD j none := by
  rw [List.getD_eq_getElem?_getD, List.getElem?_set_ne (by omega), ← List.getD_eq_getElem?_getD]

/-- Effect of the non-recursive part of `initialize_bucket` (dummy
allocation, insertion from the head, slot CAS) on an invariant state. -/
theorem init_bucket_body_spec (s1 : HM) (hInv : MapInv s1) (idx : Nat)
    (hidx : idx < s1.cap) (hcap : s1.cap ≤ 2 ^ 63) (hidx0 : idx ≠ 0) :
    MapInv (init_bucket_body s1 idx) ∧
    (init_bucket_body s1 idx).cap = s1.cap ∧
    (init_bucket_body s1 idx).count = s1.count ∧
    (init_bucket_body s1 idx).linked = s1.linked ∧
    (init_bucket_body s1 idx).retired = s1.retired ∧
    (init_bucket_body s1 idx).freedCb = s1.freedCb ∧
    s1.nextId ≤ (init_bucket_body s1 idx).nextId ∧
    (∀ b v, s1.buckets.getD b none = some v →
      (init_bucket_body s1 idx).buckets.getD b none = some v) ∧
    ((init_bucket_body s1 idx).buckets.getD idx none).isSome = true ∧
    (∀ T, make_so_dummy idx < T →
      highSeg (init_bucket_body s1 idx).list T = highSeg s1.list T) ∧
    (∀ n ∈ s1.list, n ∈ (init_bucket_body s1 idx).list) := by
  obtain ⟨f1, f2, f3, f4, f5, f6, f7, f8, f9, f10⟩ :=
    insert_dummy_spec s1 hInv idx hidx hcap hidx0
      { id := s1.nextId, key := 0, so_key := make_so_dummy idx, value := none, is_dummy := true }
      (list_insert (s1.list.drop 1)
        { id := s1.nextId, key := 0, so_key := make_so_dummy idx, value := none,
          is_dummy := true })
      (s1.list.take 1 ++ (list_insert (s1.list.drop 1)
        { id := s1.nextId, key := 0, so_key := make_so_dummy idx, value := none,
          is_dummy := true }).1)
      rfl rfl rfl
  have hbuckets : (init_bucket_body s1 idx).buckets =
      (if (s1.buckets.getD idx none).isSome then s1.buckets
       else s1.buckets.set idx (some (list_insert (s1.list.drop 1)
         { id := s1.nextId, key := 0, so_key := make_so_dummy idx, value := none,
           is_dummy := true }).2.1.id)) := rfl
  have hlist : (init_bucket_body s1 idx).list =
      s1.list.take 1 ++ (list_insert (s1.list.drop 1)
        { id := s1.nextId, key := 0, so_key := make_so_dummy idx, value := none,
          is_dummy := true }).1 := rfl
  have hlen : (init_bucket_body s1 idx).buckets.length = s1.buckets.length := by
    rw [hbuckets]
    by_cases hb : (s1.buckets.getD idx none).isSome
    · rw [if_pos hb]
    · rw [if_neg hb, List.length_set]
  have hsets : ∀ b v, s1.buckets.getD b none = some v →
      (init_bucket_body s1 idx).buckets.getD b none = some v := by
    intro b v hbv
    rw [hbuckets]
    by_cases hb : (s1.buckets.getD idx none).isSome
    · rw [if_pos hb]; exact hbv
    · rw [if_neg hb]
      have hbne : b ≠ idx := by
        intro heq
        rw [heq] at hbv
        rw [hbv] at hb
        simp at hb
      rw [getD_set_ne _ _ _ _ hbne]
      exact hbv
  refine ⟨?_, rfl, rfl, rfl, rfl, rfl, ?_, hsets, ?_, ?_, ?_⟩
  · refine ⟨?_, ?_, ?_, ?_, ?_, ?_, ?_, ?_, ?_, ?_, ?_, ?_⟩
    · rw [hlist]; exact f4
    · rw [hlist]; exact f5
    · rw [hlist]; exact f6
    · intro n hn hd2
      rw [hlist] at hn
      rcases f3 n hn with hs | rfl
      · obtain ⟨b, hb, hso⟩ := hInv.so_dummy n hs hd2
        exact ⟨b, hb, hso⟩
      · exact ⟨idx, hidx, rfl⟩
    · intro n hn hd2
      rw [hlist] at hn
      rcases f3 n hn with hs | rfl
      · exact hInv.so_regular n hs hd2
      · simp at hd2
    · rw [hlist]; exact f7
    · intro n hn
      rw [hlist] at hn
      show n.id < s1.nextId + 1
      exact f8 n hn
    · rw [hlen, hInv.buckets_len]; rfl
    · rw [hbuckets]
      by_cases hb : (s1.buckets.getD idx none).isSome
      · rw [if_pos hb]; exact hInv.bucket0
      · rw [if_neg hb, getD_set_ne _ _ _ _ (by omega)]
        exact hInv.bucket0
    · intro b i hbi
      rw [hbuckets] at hbi
      by_cases hb : (s1.buckets.getD idx none).isSome
      · rw [if_pos hb] at hbi
        obtain ⟨n, hn, hni, hnd, hnso⟩ := hInv.bucket_dummy b i hbi
        refine ⟨n, ?_, hni, hnd, hnso⟩
        rw [hlist]; exact f2 n hn
      · rw [if_neg hb] at hbi
        by_cases hbidx : b = idx
        · subst hbidx
          rw [getD_set_self _ _ _ (by rw [hInv.buckets_len]; omega)] at hbi
          obtain ⟨hrmem, hrd, hrso⟩ := f1
          have hi : (list_insert (s1.list.drop 1)
              { id := s1.nextId, key := 0, so_key := make_so_dummy b, value := none,
                is_dummy := true }).2.1.id = i :=
            Option.some_injective _ hbi
          refine ⟨_, ?_, hi, hrd, hrso⟩
          rw [hlist]; exact hrmem
        · rw [getD_set_ne _ _ _ _ hbidx] at hbi
          obtain ⟨n, hn, hni, hnd, hnso⟩ := hInv.bucket_dummy b i hbi
          refine ⟨n, ?_, hni, hnd, hnso⟩
          rw [hlist]; exact f2 n hn
    · exact hInv.cap_pow
    · show s1.count = _
      rw [hInv.count_eq, hlist]
      exact f9.symm
  · show s1.nextId ≤ s1.nextId + 1
    omega
  · rw [hbuckets]
    by_cases hb : (s1.buckets.getD idx none).isSome
    · rw [if_pos hb]; exact hb
    · rw [if_neg hb, getD_set_self _ _ _ (by rw [hInv.buckets_len]; omega)]
      rfl
  · intro T hT
    rw [hlist]
    exact f10 T hT
  · intro n hn
    rw [hlist]
    exact f2 n hn

/-- Full effect of `initialize_bucket` (hashmap.c:279-306): recursive
parent initialization preserves the map invariant, all scalar fields and
ghost fields except `nextId`, existing bucket slots, the high segment of
the list above every split-order key dominating the whole ancestor chain,
and all previously linked nodes; afterwards the requested slot is set. -/
theorem init_bucket_spec : ∀ (idx : Nat) (s : HM), MapInv s → idx < s.cap →
    s.cap ≤ 2 ^ 63 →
    MapInv (init_bucket s idx) ∧
    (init_bucket s idx).cap = s.cap ∧
    (init_bucket s idx).count = s.count ∧
    (init_bucket s idx).linked = s.linked ∧
    (init_bucket s idx).retired = s.retired ∧
    (init_bucket s idx).freedCb = s.freedCb ∧
    s.nextId ≤ (init_bucket s idx).nextId ∧
    (∀ b v, s.buckets.getD b none = some v →
      (init_bucket s idx).buckets.getD b none = some v) ∧
    ((init_bucket s idx).buckets.getD idx none).isSome = true ∧
    (∀ T, anc_ok idx T → highSeg (init_bucket s idx).list T = highSeg s.list T) ∧
    (∀ n ∈ s.list, n ∈ (init_bucket s idx).list) := by
  intro idx
  induction idx using Nat.strong_induction_on with
  | _ idx ih =>
    intro s hInv hidx hcap
    rw [init_bucket_eq]
    rw [if_neg (by omega)]
    by_cases hslot : (s.buckets.getD idx none).isSome
    · rw [if_pos hslot]
      exact ⟨hInv, rfl, rfl, rfl, rfl, rfl, le_refl _, fun b v h => h, hslot,
        fun T _ => rfl, fun n hn => hn⟩
    · rw [if_neg hslot]
      have hidx0 : idx ≠ 0 := by
        intro h0
        rw [h0, hInv.bucket0] at hslot
        simp at hslot
      have hpne : get_parent idx ≠ idx := by
        rw [get_parent_eq]
        have hle : 2 ^ Nat.log2 idx ≤ idx := Nat.log2_self_le hidx0
        have hone : 1 ≤ 2 ^ Nat.log2 idx := Nat.one_le_two_pow
        omega
      rw [if_pos hpne]
      have hplt : get_parent idx < idx := get_parent_lt idx hpne
      obtain ⟨g1, g2, g3, g4, g5, g6, g7, g8, g9, g10, g11⟩ :=
        ih (get_parent idx) hplt s hInv (by omega) hcap
      obtain ⟨b1, b2, b3, b4, b5, b6, b7, b8, b9, b10, b11⟩ :=
        init_bucket_body_spec (init_bucket s (get_parent idx)) g1 idx
          (by rw [g2]; omega) (by rw [g2]; omega) hidx0
      refine ⟨b1, by rw [b2, g2], by rw [b3, g3], by rw [b4, g4], by rw [b5, g5],
        by rw [b6, g6], le_trans g7 b7, fun b v h => b8 b v (g8 b v h), b9, ?_,
        fun n hn => b11 n (g11 n hn)⟩
      intro T hT
      rw [b10 T hT.1, g10 T (anc_ok_parent idx T hT)]

/-! ## Operation-level support -/

/-- An invariant list starts with the head sentinel. -/
theorem head_cons (s1 : HM) (hInv : MapInv s1) : ∃ tl, s1.list = hm_head :: tl := by
  have hh := hInv.head_first
  match hc : s1.list with
  | [] => rw [hc] at hh; simp at hh
  | y :: ys =>
    rw [hc] at hh
    simp at hh
    exact ⟨ys, by rw [hh]⟩

/-- The low segment at a positive threshold keeps the head sentinel. -/
theorem lowSeg_head (s1 : HM) (hInv : MapInv s1) (t : Nat) (ht : 0 < t) :
    ∃ A, lowSeg s1.list t = hm_head :: A := by
  obtain ⟨tl, htl⟩ := head_cons s1 hInv
  rw [htl, lowSeg_cons_of_lt _ _ _ (by show (0 : Nat) < t; omega)]
  exact ⟨_, rfl⟩

/-- Dropping below a threshold is the identity when everything is at or
above it. -/
theorem highSeg_eq_self_of_ge (l : List Node) (t : Nat) (h : ∀ x ∈ l, t ≤ x.so_key) :
    highSeg l t = l := by
  cases l with
  | nil => rfl
  | cons x xs =>
    rw [highSeg, List.dropWhile_cons,
      if_neg (by simp [below]; have := h x (by simp); omega)]

/-- Adjacency is vacuous across distinct split-order keys. -/
theorem adjOK_of_ne (a b : Node) (h : a.so_key ≠ b.so_key) : adjOK a b := fun he => absurd he h

/-- Replacing a node by one with the same `so_key` keeps sortedness. -/
theorem pairwise_replace (A B : List Node) (x y : Node) (hso : y.so_key = x.so_key)
    (h : (A ++ x :: B).Pairwise soLe) : (A ++ y :: B).Pairwise soLe := by
  rw [List.pairwise_append] at h ⊢
  obtain ⟨hA, hxB, hcross⟩ := h
  rw [List.pairwise_cons] at hxB ⊢
  refine ⟨hA, ⟨?_, hxB.2⟩, ?_⟩
  · intro b hb
    show y.so_key ≤ b.so_key
    rw [hso]
    exact hxB.1 b hb
  · intro a ha b hb
    rcases List.mem_cons.mp hb with rfl | hb'
    · show a.so_key ≤ b.so_key
      rw [hso]
      exact hcross a ha x (by simp)
    · exact hcross a ha b (by simp [hb'])

/-- Replacing a node by one with the same `so_key`, key and dummy flag
keeps the adjacency chain. -/
theorem chain'_replace (A B : List Node) (x y : Node) (hso : y.so_key = x.so_key)
    (hkey : y.key = x.key) (hdum : y.is_dummy = x.is_dummy)
    (h : (A ++ x :: B).Chain' adjOK) : (A ++ y :: B).Chain' adjOK := by
  rw [List.chain'_append] at h ⊢
  obtain ⟨hA, hxB, hcross⟩ := h
  rw [List.chain'_cons'] at hxB ⊢
  refine ⟨hA, ⟨?_, hxB.2⟩, ?_⟩
  · intro b hb
    have h1 := hxB.1 b hb
    intro he
    have h2 := h1 (by rw [← hso]; exact he)
    exact ⟨by rw [hdum]; exact h2.1, h2.2.1, by rw [hkey]; exact h2.2.2⟩
  · intro a ha b hb
    simp at hb
    subst hb
    have h1 := hcross a ha x (by simp)
    intro he
    have h2 := h1 (by rw [← hso]; exact he)
    exact ⟨h2.1, by rw [hdum]; exact h2.2.1, by rw [hkey]; exact h2.2.2⟩

/-- List membership survives dropping the middle element. -/
theorem mem_append_of_mem_append_ne (A B : List Node) (x n : Node)
    (hn : n ∈ A ++ x :: B) (hne : n ≠ x) : n ∈ A ++ B := by
  rcases List.mem_append.mp hn with hA | hxB
  · exact List.mem_append.mpr (Or.inl hA)
  · rcases List.mem_cons.mp hxB with rfl | hB
    · exact absurd rfl hne
    · exact List.mem_append.mpr (Or.inr hB)

/-- List membership survives inserting a middle element. -/
theorem mem_append_middle (A B : List Node) (x n : Node) (hn : n ∈ A ++ B) :
    n ∈ A ++ x :: B := by
  rcases List.mem_append.mp hn with hA | hB
  · exact List.mem_append.mpr (Or.inl hA)
  · exact List.mem_append.mpr (Or.inr (List.mem_cons.mpr (Or.inr hB)))

/-- Common prelude of the three public operations on key `k`: the bucket
computation, `initialize_bucket`, and the bucket-start split of the
global list.  `bkt`, `s1`, `i` abbreviate the C locals `bucket`, the
state after `initialize_bucket`, and the scan start index. -/
theorem op_prelude (s : HM) (hInv : MapInv s) (hcap : s.cap ≤ 2 ^ 63) (k : Nat)
    (hk : k ≠ 0) (bkt : Nat) (hbkt : bkt = hash_key k &&& (s.cap - 1))
    (s1 : HM) (hs1 : s1 = init_bucket s bkt) (i : Nat) (hi : i = bucket_start s1 bkt) :
    MapInv s1 ∧ s1.cap = s.cap ∧ s1.count = s.count ∧ s.nextId ≤ s1.nextId ∧
    s1.linked = s.linked ∧ s1.retired = s.retired ∧ s1.freedCb = s.freedCb ∧
    (∀ b v, s.buckets.getD b none = some v → s1.buckets.getD b none = some v) ∧
    (∀ n ∈ s.list, n ∈ s1.list) ∧
    i < s1.list.length ∧
    (∀ x ∈ s1.list.take (i + 1), x.so_key < make_so_regular k) ∧
    highSeg (s1.list.drop (i + 1)) (make_so_regular k) = highSeg s.list (make_so_regular k) ∧
    lowSeg s1.list (make_so_regular k)
      = s1.list.take (i + 1) ++ lowSeg (s1.list.drop (i + 1)) (make_so_regular k) ∧
    highSeg s1.list (make_so_regular k) = highSeg s.list (make_so_regular k) := by
  obtain ⟨j, hj4, hcapj⟩ := hInv.cap_pow
  have hj63 : j ≤ 63 := by
    have h1 : (2 : Nat) ^ j ≤ 2 ^ 63 := by rw [← hcapj]; exact hcap
    exact (Nat.pow_le_pow_iff_right (by norm_num)).mp h1
  have hbktm : bkt = hash_key k % 2 ^ j := by
    rw [hbkt, hcapj, Nat.and_pow_two_sub_one_eq_mod]
  have hbklt : bkt < s.cap := by
    rw [hbktm, hcapj]
    exact Nat.mod_lt _ (Nat.pos_pow_of_pos _ (by norm_num))
  have hanc : anc_ok bkt (make_so_regular k) := by
    constructor
    · rw [hbktm]; exact bucket_so_lt k j hj63
    · intro u; rw [hbktm]; exact anc_so_lt k j u hj63
  obtain ⟨g1, g2, g3, g4, g5, g6, g7, g8, g9, g10, g11⟩ :=
    init_bucket_spec bkt s hInv hbklt hcap
  rw [← hs1] at g1 g2 g3 g4 g5 g6 g7 g8 g9 g10 g11
  obtain ⟨id0, hid0⟩ : ∃ id0, s1.buckets.getD bkt none = some id0 := by
    cases hq : s1.buckets.getD bkt none
    · rw [hq] at g9; simp at g9
    · exact ⟨_, rfl⟩
  obtain ⟨hilen, hile⟩ := bucket_pre s1 g1 bkt id0 hid0
  rw [← hi] at hilen hile
  have hdlt : make_so_dummy bkt < make_so_regular k := by
    rw [hbktm]; exact bucket_so_lt k j hj63
  have htakeT : ∀ x ∈ s1.list.take (i + 1), x.so_key < make_so_regular k := fun x hx =>
    lt_of_le_of_lt (hile x hx) hdlt
  have hsplit := List.take_append_drop (i + 1) s1.list
  have hhigh1 : highSeg s1.list (make_so_regular k)
      = highSeg (s1.list.drop (i + 1)) (make_so_regular k) := by
    conv_lhs => rw [← hsplit]
    exact highSeg_append _ _ _ htakeT
  have hhigh2 : highSeg s1.list (make_so_regular k) = highSeg s.list (make_so_regular k) :=
    g10 _ hanc
  have hlow : lowSeg s1.list (make_so_regular k)
      = s1.list.take (i + 1) ++ lowSeg (s1.list.drop (i + 1)) (make_so_regular k) := by
    conv_lhs => rw [← hsplit]
    exact lowSeg_append _ _ _ htakeT
  exact ⟨g1, g2, g3, g7, g4, g5, g6, g8, g11, hilen, htakeT,
    by rw [← hhigh1]; exact hhigh2, hlow, hhigh2⟩

/-- Unfolding of `hashmap_put` past its argument guard. -/
theorem hashmap_put_eq (s : HM) (k : Nat) (v : Option Nat) (hk : ¬(k = 0 ∨ v = none)) :
    hashmap_put s k v =
      match put_update ((init_bucket s (hash_key k &&& (s.cap - 1))).list.drop
          (bucket_start (init_bucket s (hash_key k &&& (s.cap - 1)))
            (hash_key k &&& (s.cap - 1)) + 1)) (make_so_regular k) k v with
      | some (old, post) =>
          (old, { init_bucket s (hash_key k &&& (s.cap - 1)) with
                  list := (init_bucket s (hash_key k &&& (s.cap - 1))).list.take
                      (bucket_start (init_bucket s (hash_key k &&& (s.cap - 1)))
                        (hash_key k &&& (s.cap - 1)) + 1) ++ post })
      | none =>
          if (list_insert ((init_bucket s (hash_key k &&& (s.cap - 1))).list.drop
              (bucket_start (init_bucket s (hash_key k &&& (s.cap - 1)))
                (hash_key k &&& (s.cap - 1)) + 1))
              { id := (init_bucket s (hash_key k &&& (s.cap - 1))).nextId, key := k,
                so_key := make_so_regular k, value := v, is_dummy := false }).2.2 then
            (none, maybe_resize { init_bucket s (hash_key k &&& (s.cap - 1)) with
              list := (init_bucket s (hash_key k &&& (s.cap - 1))).list.take
                  (bucket_start (init_bucket s (hash_key k &&& (s.cap - 1)))
                    (hash_key k &&& (s.cap - 1)) + 1) ++
                (list_insert ((init_bucket s (hash_key k &&& (s.cap - 1))).list.drop
                  (bucket_start (init_bucket s (hash_key k &&& (s.cap - 1)))
                    (hash_key k &&& (s.cap - 1)) + 1))
                  { id := (init_bucket s (hash_key k &&& (s.cap - 1))).nextId, key := k,
                    so_key := make_so_regular k, value := v, is_dummy := false }).1
              nextId := (init_bucket s (hash_key k &&& (s.cap - 1))).nextId + 1
              count := (init_bucket s (hash_key k &&& (s.cap - 1))).count + 1
              linked := (init_bucket s (hash_key k &&& (s.cap - 1))).nextId ::
                (init_bucket s (hash_key k &&& (s.cap - 1))).linked })
          else
            (none, { init_bucket s (hash_key k &&& (s.cap - 1)) with
              list := (init_bucket s (hash_key k &&& (s.cap - 1))).list.take
                  (bucket_start (init_bucket s (hash_key k &&& (s.cap - 1)))
                    (hash_key k &&& (s.cap - 1)) + 1) ++
                (list_insert ((init_bucket s (hash_key k &&& (s.cap - 1))).list.drop
                  (bucket_start (init_bucket s (hash_key k &&& (s.cap - 1)))
                    (hash_key k &&& (s.cap - 1)) + 1))
                  { id := (init_bucket s (hash_key k &&& (s.cap - 1))).nextId, key := k,
                    so_key := make_so_regular k, value := v, is_dummy := false }).1
              nextId := (init_bucket s (hash_key k &&& (s.cap - 1))).nextId + 1 }) := by
  rw [hashmap_put, if_neg hk]

/-- Unfolding of `hashmap_get` past its argument guard. -/
theorem hashmap_get_eq (s : HM) (k : Nat) (hk : ¬k = 0) :
    hashmap_get s k =
      match list_find ((init_bucket s (hash_key k &&& (s.cap - 1))).list.drop
          (bucket_start (init_bucket s (hash_key k &&& (s.cap - 1)))
            (hash_key k &&& (s.cap - 1)) + 1)) (make_so_regular k) with
      | some c =>
          if c.so_key = make_so_regular k ∧ ¬c.is_dummy ∧ c.key = k then
            (c.value, init_bucket s (hash_key k &&& (s.cap - 1)))
          else (none, init_bucket s (hash_key k &&& (s.cap - 1)))
      | none => (none, init_bucket s (hash_key k &&& (s.cap - 1))) := by
  rw [hashmap_get, if_neg hk]

/-- Unfolding of `hashmap_remove` past its argument guard. -/
theorem hashmap_remove_eq (s : HM) (k : Nat) (hk : ¬k = 0) :
    hashmap_remove s k =
      (match (list_delete ((init_bucket s (hash_key k &&& (s.cap - 1))).list.drop
          (bucket_start (init_bucket s (hash_key k &&& (s.cap - 1)))
            (hash_key k &&& (s.cap - 1)) + 1)) (make_so_regular k) k).1 with
       | some v =>
           (some v, { init_bucket s (hash_key k &&& (s.cap - 1)) with
             list := (init_bucket s (hash_key k &&& (s.cap - 1))).list.take
                 (bucket_start (init_bucket s (hash_key k &&& (s.cap - 1)))
                   (hash_key k &&& (s.cap - 1)) + 1) ++
               (list_delete ((init_bucket s (hash_key k &&& (s.cap - 1))).list.drop
                 (bucket_start (init_bucket s (hash_key k &&& (s.cap - 1)))
                   (hash_key k &&& (s.cap - 1)) + 1)) (make_so_regular k) k).2,
             count := (init_bucket s (hash_key k &&& (s.cap - 1))).count - 1 })
       | none =>
           (none, { init_bucket s (hash_key k &&& (s.cap - 1)) with
             list := (init_bucket s (hash_key k &&& (s.cap - 1))).list.take
                 (bucket_start (init_bucket s (hash_key k &&& (s.cap - 1)))
                   (hash_key k &&& (s.cap - 1)) + 1) ++
               (list_delete ((init_bucket s (hash_key k &&& (s.cap - 1))).list.drop
                 (bucket_start (init_bucket s (hash_key k &&& (s.cap - 1)))
                   (hash_key k &&& (s.cap - 1)) + 1)) (make_so_regular k) k).2 })) := by
  rw [hashmap_remove, if_neg hk]

/-- `maybe_resize` (hashmap.c:312-338) preserves the invariant, touches
only `cap` and `buckets`, at most doubles the capacity, and keeps every
set bucket slot. -/
theorem maybe_resize_spec (s2 : HM) (hInv : MapInv s2) :
    MapInv (maybe_resize s2) ∧
    s2.cap ≤ (maybe_resize s2).cap ∧ (maybe_resize s2).cap ≤ 2 * s2.cap ∧
    (maybe_resize s2).list = s2.list ∧ (maybe_resize s2).count = s2.count ∧
    (maybe_resize s2).linked = s2.linked ∧ (maybe_resize s2).retired = s2.retired ∧
    (maybe_resize s2).freedCb = s2.freedCb ∧
    (∀ b v, s2.buckets.getD b none = some v →
      (maybe_resize s2).buckets.getD b none = some v) := by
  rw [maybe_resize]
  by_cases hc : s2.count * 100 < s2.cap * HASHMAP_LOAD_FACTOR
  · rw [if_pos hc]
    exact ⟨hInv, le_refl _, by omega, rfl, rfl, rfl, rfl, rfl, fun b v h => h⟩
  · rw [if_neg hc]
    have htake : s2.buckets.take s2.cap = s2.buckets := by
      rw [← hInv.buckets_len, List.take_length]
    rw [htake]
    have hcpos : 0 < s2.cap := by
      obtain ⟨j, hj4, hcapj⟩ := hInv.cap_pow
      rw [hcapj]
      exact Nat.pos_pow_of_pos _ (by norm_num)
    have hget : ∀ b, b < s2.cap →
        (s2.buckets ++ List.replicate s2.cap (none : Option Nat)).getD b none
          = s2.buckets.getD b none := by
      intro b hb
      exact List.getD_append _ _ _ _ (by rw [hInv.buckets_len]; omega)
    have hgetn : ∀ b, s2.cap ≤ b →
        (s2.buckets ++ List.replicate s2.cap (none : Option Nat)).getD b none = none := by
      intro b hb
      rcases Nat.lt_or_ge b (s2.cap + s2.cap) with hlt | hge
      · rw [List.getD_eq_getElem?_getD,
          List.getElem?_append_right (by rw [hInv.buckets_len]; omega),
          List.getElem?_replicate]
        by_cases hc2 : b - s2.buckets.length < s2.cap
        · rw [if_pos hc2]; rfl
        · rw [if_neg hc2]; rfl
      · rw [List.getD_eq_getElem?_getD,
          List.getElem?_eq_none (by simp [hInv.buckets_len]; omega)]
        rfl
    refine ⟨?_, by show s2.cap ≤ s2.cap * 2; omega, by show s2.cap * 2 ≤ 2 * s2.cap; omega,
      rfl, rfl, rfl, rfl, rfl, ?_⟩
    · refine ⟨hInv.head_first, hInv.sorted, hInv.adj, ?_, hInv.so_regular, hInv.ids_nodup,
        hInv.ids_lt, ?_, ?_, ?_, ?_, hInv.count_eq⟩
      · intro n hn hd
        obtain ⟨b, hb, hso⟩ := hInv.so_dummy n hn hd
        exact ⟨b, by show b < s2.cap * 2; omega, hso⟩
      · show (s2.buckets ++ _).length = s2.cap * 2
        rw [List.length_append, List.length_replicate, hInv.buckets_len]
        omega
      · show (s2.buckets ++ _).getD 0 none = some 0
        rw [hget 0 hcpos]
        exact hInv.bucket0
      · intro b i hbi
        rcases Nat.lt_or_ge b s2.cap with hlt | hge
        · rw [hget b hlt] at hbi
          exact hInv.bucket_dummy b i hbi
        · rw [hgetn b hge] at hbi
          simp at hbi
      · obtain ⟨j, hj4, hcapj⟩ := hInv.cap_pow
        exact ⟨j + 1, by omega, by rw [hcapj, pow_succ]⟩
    · intro b v hbv
      show (s2.buckets ++ _).getD b none = some v
      have hblt : b < s2.cap := by
        by_contra hno
        have : s2.buckets.getD b none = none := by
          rw [List.getD_eq_getElem?_getD,
            List.getElem?_eq_none (by rw [hInv.buckets_len]; omega)]
          rfl
        rw [this] at hbv
        simp at hbv
      rw [hget b hblt]
      exact hbv

/-- Effect of the value-exchange path of `hashmap_put` (hashmap.c:433-439)
on the global list: the head of the equal-or-above segment has its value
swapped in place; the invariant is preserved verbatim. -/
theorem surgery_exchange (s1 : HM) (hInv : MapInv s1) (k v : Nat)
    (x : Node) (xs : List Node)
    (hH : highSeg s1.list (make_so_regular k) = x :: xs)
    (hxso : x.so_key = make_so_regular k) (hxd : x.is_dummy = false) :
    MapInv { s1 with
      list := lowSeg s1.list (make_so_regular k) ++ { x with value := some v } :: xs } ∧
    highSeg (lowSeg s1.list (make_so_regular k) ++ { x with value := some v } :: xs)
        (make_so_regular k) = { x with value := some v } :: xs := by
  have hTpos : 0 < make_so_regular k := by have := make_so_regular_odd k; omega
  set A := lowSeg s1.list (make_so_regular k) with hAdef
  obtain ⟨A0, hA0⟩ := lowSeg_head s1 hInv _ hTpos
  have hsplit : s1.list = A ++ x :: xs := by
    rw [hAdef]
    conv_lhs => rw [← lowSeg_append_highSeg s1.list (make_so_regular k)]
    rw [hH]
  have hxmem : x ∈ s1.list := by rw [hsplit]; simp
  have hlow_lt : ∀ a ∈ A, a.so_key < make_so_regular k :=
    fun a ha => mem_lowSeg_lt _ _ _ (by rw [← hAdef]; exact ha)
  have hmemL : ∀ n ∈ A ++ { x with value := some v } :: xs,
      n ∈ s1.list ∨ n = { x with value := some v } := by
    intro n hn
    rcases List.mem_append.mp hn with h1 | h2
    · left; rw [hsplit]; exact List.mem_append.mpr (Or.inl h1)
    · rcases List.mem_cons.mp h2 with rfl | h3
      · right; rfl
      · left; rw [hsplit]
        exact List.mem_append.mpr (Or.inr (List.mem_cons.mpr (Or.inr h3)))
  constructor
  · refine ⟨?_, ?_, ?_, ?_, ?_, ?_, ?_, hInv.buckets_len, hInv.bucket0, ?_, hInv.cap_pow, ?_⟩
    · show (A ++ _).head? = some hm_head
      rw [hAdef, hA0, List.cons_append]
      rfl
    · have hs := hInv.sorted
      rw [hsplit] at hs
      exact pairwise_replace _ _ x _ rfl hs
    · have hs := hInv.adj
      rw [hsplit] at hs
      exact chain'_replace _ _ x _ rfl rfl rfl hs
    · intro n hn hd
      rcases hmemL n hn with h1 | rfl
      · exact hInv.so_dummy n h1 hd
      · rw [show ({ x with value := some v } : Node).is_dummy = x.is_dummy from rfl, hxd] at hd
        simp at hd
    · intro n hn hd
      rcases hmemL n hn with h1 | rfl
      · exact hInv.so_regular n h1 hd
      · obtain ⟨hso', hk0, hv0⟩ := hInv.so_regular x hxmem hxd
        exact ⟨hso', hk0, by simp⟩
    · show ((A ++ _).map Node.id).Nodup
      have hmap : (A ++ ({ x with value := some v } : Node) :: xs).map Node.id
          = s1.list.map Node.id := by
        rw [hsplit]
        simp only [List.map_append, List.map_cons]
      rw [hmap]
      exact hInv.ids_nodup
    · intro n hn
      rcases hmemL n hn with h1 | rfl
      · exact hInv.ids_lt n h1
      · exact hInv.ids_lt x hxmem
    · intro b i0 hbi
      obtain ⟨n, hn, hni, hnd, hnso⟩ := hInv.bucket_dummy b i0 hbi
      have hnex : n ≠ x := by
        intro he
        rw [he, hxd] at hnd
        simp at hnd
      refine ⟨n, ?_, hni, hnd, hnso⟩
      rw [hsplit] at hn
      exact mem_append_middle _ _ _ _ (mem_append_of_mem_append_ne _ _ _ _ hn hnex)
    · show s1.count = _
      rw [hInv.count_eq]
      rw [hsplit, List.filter_append, List.filter_append,
        List.filter_cons_of_pos (by simp [hxd]),
        List.filter_cons_of_pos (by simp [hxd])]
      simp
  · rw [highSeg_append _ _ _ hlow_lt,
      highSeg_cons_of_ge _ _ _ (by rw [show ({ x with value := some v } : Node).so_key
        = x.so_key from rfl, hxso])]

/-- Effect of the unlink path of `hashmap_remove` (hashmap.c:243-256) on
the global list: the regular head of the equal-or-above segment is
dropped, the count field drops by one, and the invariant is preserved. -/
theorem surgery_delete (s1 : HM) (hInv : MapInv s1) (k : Nat)
    (x : Node) (xs : List Node)
    (hH : highSeg s1.list (make_so_regular k) = x :: xs)
    (hxd : x.is_dummy = false) :
    MapInv { s1 with list := lowSeg s1.list (make_so_regular k) ++ xs,
                     count := s1.count - 1 } ∧
    highSeg (lowSeg s1.list (make_so_regular k) ++ xs) (make_so_regular k) = xs ∧
    s1.count = ((lowSeg s1.list (make_so_regular k) ++ xs).filter
        fun n => n.is_dummy = false).length + 1 := by
  have hTpos : 0 < make_so_regular k := by have := make_so_regular_odd k; omega
  set A := lowSeg s1.list (make_so_regular k) with hAdef
  obtain ⟨A0, hA0⟩ := lowSeg_head s1 hInv _ hTpos
  have hsplit : s1.list = A ++ x :: xs := by
    rw [hAdef]
    conv_lhs => rw [← lowSeg_append_highSeg s1.list (make_so_regular k)]
    rw [hH]
  have hlow_lt : ∀ a ∈ A, a.so_key < make_so_regular k :=
    fun a ha => mem_lowSeg_lt _ _ _ (by rw [← hAdef]; exact ha)
  have hxs_ge : ∀ b ∈ xs, make_so_regular k ≤ b.so_key := by
    intro b hb
    exact highSeg_all_ge s1.list _ hInv.sorted b (by rw [hH]; simp [hb])
  have hsub : List.Sublist (A ++ xs) (A ++ x :: xs) :=
    (List.sublist_cons_self x xs).append_left A
  have hmem : ∀ n ∈ A ++ xs, n ∈ s1.list := by
    intro n hn
    rw [hsplit]
    exact mem_append_middle _ _ _ _ hn
  have hHsuffix : x :: xs <:+ s1.list := by
    rw [← hH]
    exact List.dropWhile_suffix _
  have hfilter : s1.count = ((A ++ xs).filter fun n => n.is_dummy = false).length + 1 := by
    rw [hInv.count_eq, hsplit, List.filter_append, List.filter_append,
      List.filter_cons_of_pos (by simp [hxd])]
    simp
    omega
  refine ⟨⟨?_, ?_, ?_, ?_, ?_, ?_, ?_, hInv.buckets_len, hInv.bucket0, ?_, hInv.cap_pow, ?_⟩,
    ?_, hfilter⟩
  · show (A ++ _).head? = some hm_head
    rw [hAdef, hA0, List.cons_append]
    rfl
  · exact List.Pairwise.sublist hsub (hsplit ▸ hInv.sorted)
  · refine chain'_glue_append A xs ?_ ?_ ?_
    · exact chain_of_pre _ _ ⟨x :: xs, rfl⟩ (hsplit ▸ hInv.adj)
    · exact hInv.adj.suffix ((List.suffix_cons x xs).trans hHsuffix)
    · intro a ha b hb
      have ha' := hlow_lt a (List.mem_of_mem_getLast? (by rw [ha]; rfl))
      have hb' := hxs_ge b (List.mem_of_mem_head? (by rw [hb]; rfl))
      exact adjOK_of_ne a b (by omega)
  · intro n hn hd
    exact hInv.so_dummy n (hmem n hn) hd
  · intro n hn hd
    exact hInv.so_regular n (hmem n hn) hd
  · exact List.Nodup.sublist (hsub.map Node.id) (hsplit ▸ hInv.ids_nodup)
  · intro n hn
    exact hInv.ids_lt n (hmem n hn)
  · intro b i0 hbi
    obtain ⟨n, hn, hni, hnd, hnso⟩ := hInv.bucket_dummy b i0 hbi
    have hnex : n ≠ x := by
      intro he
      rw [he, hxd] at hnd
      simp at hnd
    refine ⟨n, ?_, hni, hnd, hnso⟩
    rw [hsplit] at hn
    exact mem_append_of_mem_append_ne _ _ _ _ hn hnex
  · show s1.count - 1 = ((A ++ xs).filter fun n => n.is_dummy = false).length
    omega
  · rw [highSeg_append _ _ _ hlow_lt, highSeg_eq_self_of_ge _ _ hxs_ge]

/-- Effect of the fresh-link path of `hashmap_put` (hashmap.c:441-457):
when no exact-key node heads the equal-or-above segment, a fresh regular
node is linked at the segment boundary, count and nextId grow by one,
and the invariant is preserved. -/
theorem surgery_insert (s1 : HM) (hInv : MapInv s1) (hcap : s1.cap ≤ 2 ^ 63)
    (k v : Nat) (hk : k ≠ 0) (nd : Node)
    (hnd : nd = { id := s1.nextId, key := k, so_key := make_so_regular k, value := some v,
                  is_dummy := false })
    (hmiss : ∀ x xs, highSeg s1.list (make_so_regular k) = x :: xs →
      ¬(x.so_key = make_so_regular k ∧ x.is_dummy = false ∧ x.key = k)) :
    MapInv { s1 with
      list := lowSeg s1.list (make_so_regular k) ++ nd :: highSeg s1.list (make_so_regular k),
      nextId := s1.nextId + 1,
      count := s1.count + 1,
      linked := nd.id :: s1.linked } ∧
    highSeg (lowSeg s1.list (make_so_regular k) ++ nd :: highSeg s1.list (make_so_regular k))
        (make_so_regular k) = nd :: highSeg s1.list (make_so_regular k) ∧
    (∀ n ∈ s1.list,
      n ∈ lowSeg s1.list (make_so_regular k) ++ nd :: highSeg s1.list (make_so_regular k)) := by
  have hTpos : 0 < make_so_regular k := by have := make_so_regular_odd k; omega
  have hndso : nd.so_key = make_so_regular k := by rw [hnd]
  have hndk : nd.key = k := by rw [hnd]
  have hndid : nd.id = s1.nextId := by rw [hnd]
  have hnddum : nd.is_dummy = false := by rw [hnd]
  have hndv : nd.value = some v := by rw [hnd]
  set A := lowSeg s1.list (make_so_regular k) with hAdef
  set H := highSeg s1.list (make_so_regular k) with hHdef
  obtain ⟨A0, hA0⟩ := lowSeg_head s1 hInv _ hTpos
  have hsplit : s1.list = A ++ H := by
    rw [hAdef, hHdef, lowSeg_append_highSeg]
  have hlow_lt : ∀ a ∈ A, a.so_key < make_so_regular k :=
    fun a ha => mem_lowSeg_lt _ _ _ (by rw [← hAdef]; exact ha)
  have hH_ge : ∀ b ∈ H, make_so_regular k ≤ b.so_key := by
    intro b hb
    exact highSeg_all_ge s1.list _ hInv.sorted b (by rw [← hHdef]; exact hb)
  have hHmem : ∀ b ∈ H, b ∈ s1.list := by
    intro b hb
    exact (List.dropWhile_suffix (below (make_so_regular k))).subset hb
  have hmemsplit : ∀ n ∈ s1.list, n ∈ A ++ nd :: H := by
    intro n hn
    rw [hsplit] at hn
    exact mem_append_middle _ _ _ _ hn
  have hmemL : ∀ n ∈ A ++ nd :: H, n ∈ s1.list ∨ n = nd := by
    intro n hn
    rcases List.mem_append.mp hn with h1 | h2
    · left; rw [hsplit]; exact List.mem_append.mpr (Or.inl h1)
    · rcases List.mem_cons.mp h2 with rfl | h3
      · right; rfl
      · left; rw [hsplit]; exact List.mem_append.mpr (Or.inr h3)
  refine ⟨⟨?_, ?_, ?_, ?_, ?_, ?_, ?_, hInv.buckets_len, hInv.bucket0, ?_, hInv.cap_pow, ?_⟩,
    ?_, hmemsplit⟩
  · show (A ++ _).head? = some hm_head
    rw [hAdef, hA0, List.cons_append]
    rfl
  · refine pairwise_glue A H nd ?_ ?_ ?_ ?_
    · exact List.Pairwise.sublist (hAdef ▸ (lowSeg_isPre _ _).sublist) hInv.sorted
    · exact List.Pairwise.sublist (hHdef ▸ (List.dropWhile_suffix _).sublist) hInv.sorted
    · intro a ha
      have := hlow_lt a ha
      rw [hndso]
      omega
    · intro b hb
      rw [hndso]
      exact hH_ge b hb
  · refine chain'_glue A H nd ?_ ?_ ?_ ?_
    · exact chain_of_pre _ _ (hAdef ▸ lowSeg_isPre _ _) hInv.adj
    · exact hInv.adj.suffix (hHdef ▸ List.dropWhile_suffix _)
    · intro a ha
      have := hlow_lt a (List.mem_of_mem_getLast? (by rw [ha]; rfl))
      refine adjOK_of_ne a nd ?_
      rw [hndso]
      omega
    · intro b hb
      obtain ⟨rest, hrest⟩ : ∃ rest, H = b :: rest := by
        cases hc : H with
        | nil => rw [hc] at hb; simp at hb
        | cons y ys =>
          rw [hc] at hb
          simp at hb
          exact ⟨ys, by rw [hb]⟩
      have hbmem : b ∈ s1.list := hHmem b (by rw [hrest]; simp)
      intro he
      have hbT : b.so_key = make_so_regular k := by rw [← he, hndso]
      cases hbd : b.is_dummy with
      | true =>
        have heven := (inv_parity s1 hInv hcap b hbmem).1 hbd
        have hodd := make_so_regular_odd k
        rw [hbT] at heven
        omega
      | false =>
        have hbk : ¬(b.key = k) := fun hbk => hmiss b rest hrest ⟨hbT, hbd, hbk⟩
        exact ⟨hnddum, rfl, by rw [hndk]; exact fun h2 => hbk h2.symm⟩
  · intro n hn hd
    rcases hmemL n hn with h1 | rfl
    · exact hInv.so_dummy n h1 hd
    · rw [hnddum] at hd; simp at hd
  · intro n hn hd
    rcases hmemL n hn with h1 | rfl
    · exact hInv.so_regular n h1 hd
    · exact ⟨by rw [hndso, hndk], by rw [hndk]; exact hk, by rw [hndv]; simp⟩
  · show ((A ++ nd :: H).map Node.id).Nodup
    have hperm : List.Perm ((A ++ nd :: H).map Node.id) ((nd :: (A ++ H)).map Node.id) :=
      List.perm_middle.map Node.id
    refine hperm.symm.nodup ?_
    rw [List.map_cons, ← hsplit]
    refine List.nodup_cons.mpr ⟨?_, hInv.ids_nodup⟩
    intro hmm
    obtain ⟨m, hmmem, hmid⟩ := List.mem_map.mp hmm
    have := hInv.ids_lt m hmmem
    rw [hndid] at hmid
    omega
  · intro n hn
    show n.id < s1.nextId + 1
    rcases hmemL n hn with h1 | rfl
    · have := hInv.ids_lt n h1
      omega
    · rw [hndid]
      omega
  · intro b i0 hbi
    obtain ⟨n, hn, hni, hnd2, hnso⟩ := hInv.bucket_dummy b i0 hbi
    exact ⟨n, hmemsplit n hn, hni, hnd2, hnso⟩
  · show s1.count + 1 = ((A ++ nd :: H).filter fun n => n.is_dummy = false).length
    rw [List.filter_append, List.filter_cons_of_pos (by simp [hnddum])]
    have := hInv.count_eq
    rw [hsplit, List.filter_append] at this
    simp only [List.length_append, List.length_cons]
    simp only [List.length_append] at this
    omega
  · rw [highSeg_append _ _ _ hlow_lt,
      highSeg_cons_of_ge _ _ _ (by rw [hndso])]

/-- Behaviour of `hashmap_get` (hashmap.c:463-492) in an invariant state:
its return value is decided by the head of the equal-or-above segment of
the split-ordered list, and the map contents are untouched apart from
bucket initialization. -/
theorem hashmap_get_spec (s : HM) (hInv : MapInv s) (hcap : s.cap ≤ 2 ^ 63) (k : Nat)
    (hk : k ≠ 0) :
    MapInv (hashmap_get s k).2 ∧
    (hashmap_get s k).2.cap = s.cap ∧
    (hashmap_get s k).2.count = s.count ∧
    (∀ n ∈ s.list, n ∈ (hashmap_get s k).2.list) ∧
    (∀ b v, s.buckets.getD b none = some v →
      (hashmap_get s k).2.buckets.getD b none = some v) ∧
    (∀ x xs, highSeg s.list (make_so_regular k) = x :: xs →
      x.so_key = make_so_regular k → x.is_dummy = false → x.key = k →
      (hashmap_get s k).1 = x.value) ∧
    ((∀ x xs, highSeg s.list (make_so_regular k) = x :: xs →
        ¬(x.so_key = make_so_regular k ∧ x.is_dummy = false ∧ x.key = k)) →
      (hashmap_get s k).1 = none) := by
  have hget := hashmap_get_eq s k hk
  set bkt := hash_key k &&& (s.cap - 1) with hbkt
  set s1 := init_bucket s bkt with hs1
  set i := bucket_start s1 bkt with hi
  obtain ⟨p1, p2, p3, p4, pl, pr, pf, p8, p9, p10, p11, p12, p13, p14⟩ :=
    op_prelude s hInv hcap k hk bkt hbkt s1 hs1 i hi
  have hfind : list_find (s1.list.drop (i + 1)) (make_so_regular k)
      = list_find (highSeg s.list (make_so_regular k)) (make_so_regular k) := by
    rw [list_find_split, p12]
  have hstate : (hashmap_get s k).2 = s1 := by
    rcases hfq : list_find (s1.list.drop (i + 1)) (make_so_regular k) with _ | c
    · rw [hget, hfq]
    · have hgi : hashmap_get s k =
          if c.so_key = make_so_regular k ∧ ¬c.is_dummy ∧ c.key = k
          then (c.value, s1) else (none, s1) := by
        rw [hget, hfq]
      by_cases hc : c.so_key = make_so_regular k ∧ ¬c.is_dummy ∧ c.key = k
      · rw [hgi, if_pos hc]
      · rw [hgi, if_neg hc]
  refine ⟨by rw [hstate]; exact p1, by rw [hstate]; exact p2, by rw [hstate]; exact p3,
    by rw [hstate]; exact p9, by rw [hstate]; exact p8, ?_, ?_⟩
  · intro x xs hxx hxso hxd hxk
    have hfq : list_find (s1.list.drop (i + 1)) (make_so_regular k) = some x := by
      rw [hfind, hxx, list_find, if_pos (le_of_eq hxso.symm)]
    have hgi : hashmap_get s k =
        if x.so_key = make_so_regular k ∧ ¬x.is_dummy ∧ x.key = k
        then (x.value, s1) else (none, s1) := by
      rw [hget, hfq]
    rw [hgi, if_pos ⟨hxso, by simp [hxd], hxk⟩]
  · intro hmiss
    rcases hfq2 : highSeg s.list (make_so_regular k) with _ | ⟨x, xs⟩
    · have hfq : list_find (s1.list.drop (i + 1)) (make_so_regular k) = none := by
        rw [hfind, hfq2]
        rfl
      rw [hget, hfq]
    · have hge := highSeg_head_ge s.list (make_so_regular k) x xs hfq2
      have hfq : list_find (s1.list.drop (i + 1)) (make_so_regular k) = some x := by
        rw [hfind, hfq2, list_find, if_pos hge]
      have hgi : hashmap_get s k =
          if x.so_key = make_so_regular k ∧ ¬x.is_dummy ∧ x.key = k
          then (x.value, s1) else (none, s1) := by
        rw [hget, hfq]
      rw [hgi, if_neg (fun hc => hmiss x xs hfq2 ⟨hc.1, by simpa using hc.2.1, hc.2.2⟩)]

/-- Behaviour of `hashmap_remove` (hashmap.c:494-519) in an invariant
state: when the head of the equal-or-above segment is an exact regular
match it is unlinked, its value returned, and count decremented;
otherwise nothing changes and NULL is returned. -/
theorem hashmap_remove_spec (s : HM) (hInv : MapInv s) (hcap : s.cap ≤ 2 ^ 63) (k : Nat)
    (hk : k ≠ 0) :
    MapInv (hashmap_remove s k).2 ∧
    (hashmap_remove s k).2.cap = s.cap ∧
    (∀ n ∈ s.list, n.is_dummy = true → n ∈ (hashmap_remove s k).2.list) ∧
    (∀ b v, s.buckets.getD b none = some v →
      (hashmap_remove s k).2.buckets.getD b none = some v) ∧
    ((∃ x xs, highSeg s.list (make_so_regular k) = x :: xs ∧
        x.so_key = make_so_regular k ∧ x.is_dummy = false ∧ x.key = k ∧
        (hashmap_remove s k).1 = x.value ∧
        (hashmap_remove s k).2.count + 1 = s.count ∧
        highSeg (hashmap_remove s k).2.list (make_so_regular k) = xs) ∨
      ((hashmap_remove s k).1 = none ∧ (hashmap_remove s k).2.count = s.count ∧
        (∀ x xs, highSeg s.list (make_so_regular k) = x :: xs →
          ¬(x.so_key = make_so_regular k ∧ x.is_dummy = false ∧ x.key = k)))) := by
  have hrem := hashmap_remove_eq s k hk
  set bkt := hash_key k &&& (s.cap - 1) with hbkt
  set s1 := init_bucket s bkt with hs1
  set i := bucket_start s1 bkt with hi
  obtain ⟨p1, p2, p3, p4, pl, pr, pf, p8, p9, p10, p11, p12, p13, p14⟩ :=
    op_prelude s hInv hcap k hk bkt hbkt s1 hs1 i hi
  have hdel : list_delete (s1.list.drop (i + 1)) (make_so_regular k) k
      = ((list_delete (highSeg s.list (make_so_regular k)) (make_so_regular k) k).1,
         lowSeg (s1.list.drop (i + 1)) (make_so_regular k) ++
           (list_delete (highSeg s.list (make_so_regular k)) (make_so_regular k) k).2) := by
    rw [list_delete_split, p12]
  have hfst : (list_delete (s1.list.drop (i + 1)) (make_so_regular k) k).1
      = (list_delete (highSeg s.list (make_so_regular k)) (make_so_regular k) k).1 := by
    rw [hdel]
  have hsnd : (list_delete (s1.list.drop (i + 1)) (make_so_regular k) k).2
      = lowSeg (s1.list.drop (i + 1)) (make_so_regular k) ++
          (list_delete (highSeg s.list (make_so_regular k)) (make_so_regular k) k).2 := by
    rw [hdel]
  have hcases : highSeg s.list (make_so_regular k) = [] ∨
      ∃ x xs, highSeg s.list (make_so_regular k) = x :: xs := by
    cases hq : highSeg s.list (make_so_regular k) with
    | nil => exact Or.inl rfl
    | cons a l => exact Or.inr ⟨a, l, rfl⟩
  rcases hcases with hh | ⟨x, xs, hh⟩
  · -- empty segment: no node at or above the key, nothing changes
    have hfst2 : (list_delete (s1.list.drop (i + 1)) (make_so_regular k) k).1 = none := by
      rw [hfst, hh]
      rfl
    have hrem2 : hashmap_remove s k =
        (none, { s1 with list := s1.list.take (i + 1) ++
          (list_delete (s1.list.drop (i + 1)) (make_so_regular k) k).2 }) := by
      rw [hrem, hfst2]
    have hlist2 : s1.list.take (i + 1) ++
        (list_delete (s1.list.drop (i + 1)) (make_so_regular k) k).2 = s1.list := by
      rw [hsnd, hh]
      show s1.list.take (i + 1) ++
        (lowSeg (s1.list.drop (i + 1)) (make_so_regular k) ++ []) = s1.list
      rw [List.append_nil, ← p13]
      have hlh := lowSeg_append_highSeg s1.list (make_so_regular k)
      rw [p14, hh, List.append_nil] at hlh
      exact hlh
    have hstate : (hashmap_remove s k).2 = s1 := by
      rw [hrem2, hlist2]
    refine ⟨by rw [hstate]; exact p1, by rw [hstate]; exact p2,
      fun n hn _ => by rw [hstate]; exact p9 n hn, by rw [hstate]; exact p8, Or.inr ⟨?_, ?_, ?_⟩⟩
    · rw [hrem2]
    · rw [hstate]; exact p3
    · intro x' xs' hxx
      rw [hh] at hxx
      simp at hxx
  · have hge := highSeg_head_ge s.list (make_so_regular k) x xs hh
    have hsplit1 : s1.list = lowSeg s1.list (make_so_regular k) ++ x :: xs := by
      have hlh := lowSeg_append_highSeg s1.list (make_so_regular k)
      rw [p14, hh] at hlh
      exact hlh.symm
    by_cases hmatch : x.so_key = make_so_regular k ∧ x.is_dummy = false ∧ x.key = k
    · -- exact hit: the head is unlinked
      have hxmem : x ∈ s.list :=
        (List.dropWhile_suffix (below (make_so_regular k))).subset
          (show x ∈ highSeg s.list (make_so_regular k) by rw [hh]; simp)
      obtain ⟨w, hw⟩ : ∃ w, x.value = some w := by
        have hval := (hInv.so_regular x hxmem hmatch.2.1).2.2
        cases hxv : x.value
        · rw [hxv] at hval; simp at hval
        · exact ⟨_, rfl⟩
      have hld : list_delete (x :: xs) (make_so_regular k) k = (x.value, xs) := by
        rw [list_delete, if_pos (le_of_eq hmatch.1.symm),
          if_pos ⟨hmatch.1, by simp [hmatch.2.1], hmatch.2.2⟩]
      have hfst2 : (list_delete (s1.list.drop (i + 1)) (make_so_regular k) k).1 = some w := by
        rw [hfst, hh, hld, hw]
      have hrem2 : hashmap_remove s k =
          (some w, { s1 with
            list := s1.list.take (i + 1) ++
              (list_delete (s1.list.drop (i + 1)) (make_so_regular k) k).2
            count := s1.count - 1 }) := by
        rw [hrem, hfst2]
      have hlist2 : s1.list.take (i + 1) ++
          (list_delete (s1.list.drop (i + 1)) (make_so_regular k) k).2
          = lowSeg s1.list (make_so_regular k) ++ xs := by
        rw [hsnd, hh, hld]
        show s1.list.take (i + 1) ++
          (lowSeg (s1.list.drop (i + 1)) (make_so_regular k) ++ xs) = _
        rw [← List.append_assoc, ← p13]
      obtain ⟨hInv', hhigh', hcnt'⟩ := surgery_delete s1 p1 k x xs (by rw [p14, hh]) hmatch.2.1
      have hstate : (hashmap_remove s k).2 =
          { s1 with
            list := lowSeg s1.list (make_so_regular k) ++ xs
            count := s1.count - 1 } := by
        rw [hrem2, hlist2]
      refine ⟨by rw [hstate]; exact hInv', by rw [hstate]; exact p2, ?_, by rw [hstate]; exact p8,
        Or.inl ⟨x, xs, hh, hmatch.1, hmatch.2.1, hmatch.2.2, by rw [hrem2, hw], ?_, ?_⟩⟩
      · intro n hn hnd
        rw [hstate]
        show n ∈ lowSeg s1.list (make_so_regular k) ++ xs
        have hn1 : n ∈ s1.list := p9 n hn
        rw [hsplit1] at hn1
        refine mem_append_of_mem_append_ne _ _ _ _ hn1 ?_
        intro he
        rw [he, hmatch.2.1] at hnd
        simp at hnd
      · rw [hstate]
        show s1.count - 1 + 1 = s.count
        rw [← p3]
        omega
      · rw [hstate]
        show highSeg (lowSeg s1.list (make_so_regular k) ++ xs) (make_so_regular k) = xs
        exact hhigh'
    · -- head mismatch: NULL, no change
      have hld : list_delete (x :: xs) (make_so_regular k) k = (none, x :: xs) := by
        rw [list_delete, if_pos hge,
          if_neg (fun hc => hmatch ⟨hc.1, by simpa using hc.2.1, hc.2.2⟩)]
      have hfst2 : (list_delete (s1.list.drop (i + 1)) (make_so_regular k) k).1 = none := by
        rw [hfst, hh, hld]
      have hrem2 : hashmap_remove s k =
          (none, { s1 with list := s1.list.take (i + 1) ++
            (list_delete (s1.list.drop (i + 1)) (make_so_regular k) k).2 }) := by
        rw [hrem, hfst2]
      have hlist2 : s1.list.take (i + 1) ++
          (list_delete (s1.list.drop (i + 1)) (make_so_regular k) k).2 = s1.list := by
        rw [hsnd, hh, hld]
        show s1.list.take (i + 1) ++
          (lowSeg (s1.list.drop (i + 1)) (make_so_regular k) ++ x :: xs) = _
        rw [← List.append_assoc, ← p13, ← hh, ← p14, lowSeg_append_highSeg]
      have hstate : (hashmap_remove s k).2 = s1 := by
        rw [hrem2, hlist2]
      refine ⟨by rw [hstate]; exact p1, by rw [hstate]; exact p2,
        fun n hn _ => by rw [hstate]; exact p9 n hn, by rw [hstate]; exact p8,
        Or.inr ⟨by rw [hrem2], by rw [hstate]; exact p3, ?_⟩⟩
      intro x' xs' hxx hcon
      rw [hh] at hxx
      have hx1 : x = x' ∧ xs = xs' := by simpa using hxx
      exact hmatch (hx1.1 ▸ hcon)

/-- Behaviour of `hashmap_put` (hashmap.c:412-461) in an invariant state:
the key's run in the split-ordered list afterwards starts with a regular
node carrying the new value; an exact match at the head of the
equal-or-above segment is updated in place (returning the prior value),
otherwise a fresh node is linked, count grows by one and NULL is
returned. -/
theorem hashmap_put_spec (s : HM) (hInv : MapInv s) (hcap : s.cap ≤ 2 ^ 63)
    (k v : Nat) (hk : k ≠ 0) :
    MapInv (hashmap_put s k (some v)).2 ∧
    s.cap ≤ (hashmap_put s k (some v)).2.cap ∧
    (hashmap_put s k (some v)).2.cap ≤ 2 * s.cap ∧
    (∀ n ∈ s.list, n.is_dummy = true → n ∈ (hashmap_put s k (some v)).2.list) ∧
    (∀ b w, s.buckets.getD b none = some w →
      (hashmap_put s k (some v)).2.buckets.getD b none = some w) ∧
    (∃ m rest, highSeg (hashmap_put s k (some v)).2.list (make_so_regular k) = m :: rest ∧
      m.so_key = make_so_regular k ∧ m.is_dummy = false ∧ m.key = k ∧ m.value = some v) ∧
    ((∃ x xs, highSeg s.list (make_so_regular k) = x :: xs ∧
        x.so_key = make_so_regular k ∧ x.is_dummy = false ∧ x.key = k ∧
        (hashmap_put s k (some v)).1 = x.value ∧
        (hashmap_put s k (some v)).2.count = s.count ∧
        (hashmap_put s k (some v)).2.cap = s.cap ∧
        highSeg (hashmap_put s k (some v)).2.list (make_so_regular k)
          = { x with value := some v } :: xs) ∨
      ((hashmap_put s k (some v)).1 = none ∧
        (hashmap_put s k (some v)).2.count = s.count + 1 ∧
        (∀ x xs, highSeg s.list (make_so_regular k) = x :: xs →
          ¬(x.so_key = make_so_regular k ∧ x.is_dummy = false ∧ x.key = k)))) := by
  have hne : ¬(k = 0 ∨ (some v : Option Nat) = none) := by simp [hk]
  have hput := hashmap_put_eq s k (some v) hne
  set bkt := hash_key k &&& (s.cap - 1) with hbkt
  set s1 := init_bucket s bkt with hs1
  set i := bucket_start s1 bkt with hi
  set nd : Node := { id := s1.nextId, key := k, so_key := make_so_regular k, value := some v, is_dummy := false } with hnd
  obtain ⟨p1, p2, p3, p4, pl, pr, pf, p8, p9, p10, p11, p12, p13, p14⟩ :=
    op_prelude s hInv hcap k hk bkt hbkt s1 hs1 i hi
  have hpu : put_update (s1.list.drop (i + 1)) (make_so_regular k) k (some v)
      = Option.map (fun p => (p.1, lowSeg (s1.list.drop (i + 1)) (make_so_regular k) ++ p.2))
          (put_update (highSeg s.list (make_so_regular k)) (make_so_regular k) k (some v)) := by
    rw [put_update_split, p12]
  by_cases hex : ∃ x xs, highSeg s.list (make_so_regular k) = x :: xs ∧
      x.so_key = make_so_regular k ∧ x.is_dummy = false ∧ x.key = k
  · -- exact-key head: value exchange
    obtain ⟨x, xs, hh, hxso, hxd, hxk⟩ := hex
    have hxmem : x ∈ s.list :=
      (List.dropWhile_suffix (below (make_so_regular k))).subset
        (show x ∈ highSeg s.list (make_so_regular k) by rw [hh]; simp)
    have hpuH : put_update (x :: xs) (make_so_regular k) k (some v)
        = some (x.value, { x with value := some v } :: xs) := by
      rw [put_update, if_pos (le_of_eq hxso.symm),
        if_pos ⟨hxso, by simp [hxd], hxk⟩]
    have hpu2 : put_update (s1.list.drop (i + 1)) (make_so_regular k) k (some v)
        = some (x.value, lowSeg (s1.list.drop (i + 1)) (make_so_regular k) ++
            { x with value := some v } :: xs) := by
      rw [hpu, hh, hpuH]
      rfl
    have hput2 : hashmap_put s k (some v)
        = (x.value, { s1 with list := s1.list.take (i + 1) ++
            (lowSeg (s1.list.drop (i + 1)) (make_so_regular k) ++
              { x with value := some v } :: xs) }) := by
      rw [hput, hpu2]
    have hlist2 : s1.list.take (i + 1) ++
        (lowSeg (s1.list.drop (i + 1)) (make_so_regular k) ++
          { x with value := some v } :: xs)
        = lowSeg s1.list (make_so_regular k) ++ { x with value := some v } :: xs := by
      rw [← List.append_assoc, ← p13]
    obtain ⟨hInv', hhigh'⟩ := surgery_exchange s1 p1 k v x xs (by rw [p14, hh]) hxso hxd
    have hstate : (hashmap_put s k (some v)).2
        = { s1 with list := lowSeg s1.list (make_so_regular k) ++
            { x with value := some v } :: xs } := by
      rw [hput2, hlist2]
    have hsplit1 : s1.list = lowSeg s1.list (make_so_regular k) ++ x :: xs := by
      have hlh := lowSeg_append_highSeg s1.list (make_so_regular k)
      rw [p14, hh] at hlh
      exact hlh.symm
    refine ⟨by rw [hstate]; exact hInv', ?_, ?_, ?_, by rw [hstate]; exact p8,
      ⟨{ x with value := some v }, xs, by rw [hstate]; exact hhigh', hxso, hxd, hxk, rfl⟩,
      Or.inl ⟨x, xs, hh, hxso, hxd, hxk, by rw [hput2], by rw [hstate]; exact p3,
        by rw [hstate]; exact p2, by rw [hstate]; exact hhigh'⟩⟩
    · rw [hstate]
      show s.cap ≤ s1.cap
      omega
    · rw [hstate]
      show s1.cap ≤ 2 * s.cap
      omega
    · intro n hn hnd2
      rw [hstate]
      show n ∈ lowSeg s1.list (make_so_regular k) ++ { x with value := some v } :: xs
      have hn1 : n ∈ s1.list := p9 n hn
      rw [hsplit1] at hn1
      refine mem_append_middle _ _ _ _ (mem_append_of_mem_append_ne _ _ _ _ hn1 ?_)
      intro he
      rw [he, hxd] at hnd2
      simp at hnd2
  · -- no exact-key head: fresh node linked
    have hmiss : ∀ x xs, highSeg s.list (make_so_regular k) = x :: xs →
        ¬(x.so_key = make_so_regular k ∧ x.is_dummy = false ∧ x.key = k) :=
      fun x xs hxx hc => hex ⟨x, xs, hxx, hc⟩
    have hndso : nd.so_key = make_so_regular k := by rw [hnd]
    have hpuH : put_update (highSeg s.list (make_so_regular k)) (make_so_regular k) k (some v)
        = none := by
      cases hq : highSeg s.list (make_so_regular k) with
      | nil => rfl
      | cons a l =>
        have hge := highSeg_head_ge s.list (make_so_regular k) a l hq
        rw [put_update, if_pos hge,
          if_neg (fun hc => hmiss a l hq ⟨hc.1, by simpa using hc.2.1, hc.2.2⟩)]
    have hpu2 : put_update (s1.list.drop (i + 1)) (make_so_regular k) k (some v) = none := by
      rw [hpu, hpuH]
      rfl
    have hinsH : list_insert (highSeg s.list (make_so_regular k)) nd
        = (nd :: highSeg s.list (make_so_regular k), nd, true) := by
      cases hq : highSeg s.list (make_so_regular k) with
      | nil => rfl
      | cons a l =>
        have hge := highSeg_head_ge s.list (make_so_regular k) a l hq
        rw [list_insert, if_pos (by rw [hndso]; exact hge)]
        by_cases heq : a.so_key = nd.so_key
        · rw [if_pos heq, if_neg (by rw [hnd]; simp),
            if_neg (fun hc => hmiss a l hq
              ⟨by rw [← hndso, ← heq], by simpa using hc.1, by rw [← show nd.key = k by rw [hnd]]; exact hc.2⟩)]
        · rw [if_neg heq]
    have hins2 : list_insert (s1.list.drop (i + 1)) nd
        = (lowSeg (s1.list.drop (i + 1)) (make_so_regular k) ++
            nd :: highSeg s.list (make_so_regular k), nd, true) := by
      rw [list_insert_split, hndso, p12, hinsH]
    have hr22 : (list_insert (s1.list.drop (i + 1)) nd).2.2 = true := by
      rw [hins2]
    have hfstlist : (list_insert (s1.list.drop (i + 1)) nd).1
        = lowSeg (s1.list.drop (i + 1)) (make_so_regular k) ++
            nd :: highSeg s.list (make_so_regular k) := by
      rw [hins2]
    have hput2 : hashmap_put s k (some v)
        = (none, maybe_resize { s1 with
            list := s1.list.take (i + 1) ++
              (lowSeg (s1.list.drop (i + 1)) (make_so_regular k) ++
                nd :: highSeg s.list (make_so_regular k))
            nextId := s1.nextId + 1
            count := s1.count + 1
            linked := s1.nextId :: s1.linked }) := by
      rw [hput, hpu2, hr22, if_pos (rfl : true = true), hfstlist]
    have hlist2 : s1.list.take (i + 1) ++
        (lowSeg (s1.list.drop (i + 1)) (make_so_regular k) ++
          nd :: highSeg s.list (make_so_regular k))
        = lowSeg s1.list (make_so_regular k) ++ nd :: highSeg s1.list (make_so_regular k) := by
      rw [← List.append_assoc, ← p13, p14]
    obtain ⟨hInv2, hhigh2, hmem2⟩ :=
      surgery_insert s1 p1 (by omega) k v hk nd hnd
        (fun x xs hxx => hmiss x xs (by rw [← p14]; exact hxx))
    have hndid : nd.id = s1.nextId := by rw [hnd]
    have hrec : ({ s1 with
        list := s1.list.take (i + 1) ++
          (lowSeg (s1.list.drop (i + 1)) (make_so_regular k) ++
            nd :: highSeg s.list (make_so_regular k))
        nextId := s1.nextId + 1
        count := s1.count + 1
        linked := s1.nextId :: s1.linked } : HM)
        = { s1 with
            list := lowSeg s1.list (make_so_regular k) ++
              nd :: highSeg s1.list (make_so_regular k)
            nextId := s1.nextId + 1
            count := s1.count + 1
            linked := nd.id :: s1.linked } := by
      rw [hlist2, hndid]
    obtain ⟨q1, q2, q3, q4, q5, q6, q7, q8, q9⟩ := maybe_resize_spec _ hInv2
    have hstate : (hashmap_put s k (some v)).2
        = maybe_resize { s1 with
            list := lowSeg s1.list (make_so_regular k) ++
              nd :: highSeg s1.list (make_so_regular k)
            nextId := s1.nextId + 1
            count := s1.count + 1
            linked := nd.id :: s1.linked } := by
      rw [hput2, hrec]
    refine ⟨by rw [hstate]; exact q1, ?_, ?_, ?_, ?_,
      ⟨nd, highSeg s1.list (make_so_regular k), ?_, by rw [hnd], by rw [hnd], by rw [hnd],
        by rw [hnd]⟩,
      Or.inr ⟨by rw [hput2], ?_, hmiss⟩⟩
    · rw [hstate]
      have : s.cap ≤ ({ s1 with
          list := lowSeg s1.list (make_so_regular k) ++
            nd :: highSeg s1.list (make_so_regular k)
          nextId := s1.nextId + 1
          count := s1.count + 1
          linked := nd.id :: s1.linked } : HM).cap := by
        show s.cap ≤ s1.cap
        omega
      omega
    · rw [hstate]
      have h3 : ({ s1 with
          list := lowSeg s1.list (make_so_regular k) ++
            nd :: highSeg s1.list (make_so_regular k)
          nextId := s1.nextId + 1
          count := s1.count + 1
          linked := nd.id :: s1.linked } : HM).cap = s.cap := p2
      omega
    · intro n hn hnd2
      rw [hstate, q4]
      show n ∈ lowSeg s1.list (make_so_regular k) ++
        nd :: highSeg s1.list (make_so_regular k)
      exact hmem2 n (p9 n hn)
    · intro b w hbw
      rw [hstate]
      refine q9 b w ?_
      show s1.buckets.getD b none = some w
      exact p8 b w hbw
    · rw [hstate, q4]
      show highSeg (lowSeg s1.list (make_so_regular k) ++
        nd :: highSeg s1.list (make_so_regular k)) (make_so_regular k)
        = nd :: highSeg s1.list (make_so_regular k)
      exact hhigh2
    · rw [hstate, q5]
      show s1.count + 1 = s.count + 1
      omega

/-- `initialize_bucket` never changes the capacity. -/
theorem init_bucket_cap : ∀ idx (s : HM), (init_bucket s idx).cap = s.cap := by
  intro idx
  induction idx using Nat.strong_induction_on with
  | _ idx ih =>
    intro s
    rw [init_bucket_eq]
    by_cases h1 : idx ≥ s.cap
    · rw [if_pos h1]
    · rw [if_neg h1]
      by_cases h2 : (s.buckets.getD idx none).isSome
      · rw [if_pos h2]
      · rw [if_neg h2]
        by_cases h3 : get_parent idx ≠ idx
        · rw [if_pos h3]
          show (init_bucket s (get_parent idx)).cap = s.cap
          exact ih (get_parent idx) (get_parent_lt idx h3) s
        · rw [if_neg h3]
          rfl

/-- `maybe_resize` never shrinks the capacity. -/
theorem maybe_resize_cap (s2 : HM) : s2.cap ≤ (maybe_resize s2).cap := by
  rw [maybe_resize]
  by_cases hc : s2.count * 100 < s2.cap * HASHMAP_LOAD_FACTOR
  · rw [if_pos hc]
  · rw [if_neg hc]
    show s2.cap ≤ s2.cap * 2
    omega

/-- `hashmap_put` never shrinks the capacity (no invariant needed). -/
theorem hashmap_put_cap (s : HM) (k : Nat) (v : Option Nat) :
    s.cap ≤ (hashmap_put s k v).2.cap := by
  by_cases hg : k = 0 ∨ v = none
  · rw [hashmap_put, if_pos hg]
  · have hput := hashmap_put_eq s k v hg
    set bkt := hash_key k &&& (s.cap - 1) with hbkt
    set s1 := init_bucket s bkt with hs1
    set i := bucket_start s1 bkt with hi
    set nd : Node := { id := s1.nextId, key := k, so_key := make_so_regular k, value := v, is_dummy := false } with hnd
    have hcap1 : s1.cap = s.cap := by rw [hs1]; exact init_bucket_cap bkt s
    have hsplit : put_update (s1.list.drop (i + 1)) (make_so_regular k) k v = none ∨
        ∃ p, put_update (s1.list.drop (i + 1)) (make_so_regular k) k v = some p := by
      cases put_update (s1.list.drop (i + 1)) (make_so_regular k) k v
      · exact Or.inl rfl
      · exact Or.inr ⟨_, rfl⟩
    rcases hsplit with hq | ⟨⟨old, post⟩, hq⟩
    · cases hb : (list_insert (s1.list.drop (i + 1)) nd).2.2 with
      | false =>
        have hput2 : (hashmap_put s k v).2 = { s1 with
            list := s1.list.take (i + 1) ++ (list_insert (s1.list.drop (i + 1)) nd).1
            nextId := s1.nextId + 1 } := by
          rw [hput, hq, hb, if_neg (by simp)]
        rw [hput2]
        show s.cap ≤ s1.cap
        omega
      | true =>
        have hput2 : (hashmap_put s k v).2 = maybe_resize { s1 with
            list := s1.list.take (i + 1) ++ (list_insert (s1.list.drop (i + 1)) nd).1
            nextId := s1.nextId + 1
            count := s1.count + 1
            linked := s1.nextId :: s1.linked } := by
          rw [hput, hq, hb, if_pos (rfl : true = true)]
        rw [hput2]
        refine le_trans ?_ (maybe_resize_cap _)
        exact le_of_eq hcap1.symm
    · have hput2 : (hashmap_put s k v).2 = { s1 with
          list := s1.list.take (i + 1) ++ post } := by
        rw [hput, hq]
      rw [hput2]
      show s.cap ≤ s1.cap
      omega

/-- `hashmap_get` keeps the capacity. -/
theorem hashmap_get_cap (s : HM) (k : Nat) : (hashmap_get s k).2.cap = s.cap := by
  by_cases hk : k = 0
  · rw [hashmap_get, if_pos hk]
  · have hget := hashmap_get_eq s k hk
    set bkt := hash_key k &&& (s.cap - 1) with hbkt
    set s1 := init_bucket s bkt with hs1
    set i := bucket_start s1 bkt with hi
    have hcap1 : s1.cap = s.cap := by rw [hs1]; exact init_bucket_cap bkt s
    have hsplit : list_find (s1.list.drop (i + 1)) (make_so_regular k) = none ∨
        ∃ c, list_find (s1.list.drop (i + 1)) (make_so_regular k) = some c := by
      cases list_find (s1.list.drop (i + 1)) (make_so_regular k)
      · exact Or.inl rfl
      · exact Or.inr ⟨_, rfl⟩
    rcases hsplit with hq | ⟨c, hq⟩
    · have hg2 : (hashmap_get s k).2 = s1 := by rw [hget, hq]
      rw [hg2]
      exact hcap1
    · by_cases hc : c.so_key = make_so_regular k ∧ ¬c.is_dummy ∧ c.key = k
      · have hg2 : (hashmap_get s k).2 = s1 := by
          have hgi : hashmap_get s k =
              if c.so_key = make_so_regular k ∧ ¬c.is_dummy ∧ c.key = k
              then (c.value, s1) else (none, s1) := by
            rw [hget, hq]
          rw [hgi, if_pos hc]
        rw [hg2]
        exact hcap1
      · have hg2 : (hashmap_get s k).2 = s1 := by
          have hgi : hashmap_get s k =
              if c.so_key = make_so_regular k ∧ ¬c.is_dummy ∧ c.key = k
              then (c.value, s1) else (none, s1) := by
            rw [hget, hq]
          rw [hgi, if_neg hc]
        rw [hg2]
        exact hcap1

/-- `hashmap_remove` keeps the capacity. -/
theorem hashmap_remove_cap (s : HM) (k : Nat) : (hashmap_remove s k).2.cap = s.cap := by
  by_cases hk : k = 0
  · rw [hashmap_remove, if_pos hk]
  · have hrem := hashmap_remove_eq s k hk
    set bkt := hash_key k &&& (s.cap - 1) with hbkt
    set s1 := init_bucket s bkt with hs1
    set i := bucket_start s1 bkt with hi
    have hcap1 : s1.cap = s.cap := by rw [hs1]; exact init_bucket_cap bkt s
    have hsplit : (list_delete (s1.list.drop (i + 1)) (make_so_regular k) k).1 = none ∨
        ∃ w, (list_delete (s1.list.drop (i + 1)) (make_so_regular k) k).1 = some w := by
      cases (list_delete (s1.list.drop (i + 1)) (make_so_regular k) k).1
      · exact Or.inl rfl
      · exact Or.inr ⟨_, rfl⟩
    rcases hsplit with hq | ⟨w, hq⟩
    · have hr2 : (hashmap_remove s k).2 = { s1 with
          list := s1.list.take (i + 1) ++
            (list_delete (s1.list.drop (i + 1)) (make_so_regular k) k).2 } := by
        rw [hrem, hq]
      rw [hr2]
      exact hcap1
    · have hr2 : (hashmap_remove s k).2 = { s1 with
          list := s1.list.take (i + 1) ++
            (list_delete (s1.list.drop (i + 1)) (make_so_regular k) k).2
          count := s1.count - 1 } := by
        rw [hrem, hq]
      rw [hr2]
      exact hcap1

/-- The capacity is monotone along every operation. -/
theorem cap_mono (s : HM) (op : MapOp) : s.cap ≤ (runOp s op).cap := by
  cases op with
  | put k v => exact hashmap_put_cap s k v
  | get k => exact le_of_eq (hashmap_get_cap s k).symm
  | remove k => exact le_of_eq (hashmap_remove_cap s k).symm

/-- One public operation preserves the invariant (given the capacity
bound), never unlinks a dummy, and never clears a bucket slot. -/
theorem inv_step (s : HM) (hInv : MapInv s) (hcap : s.cap ≤ 2 ^ 63) (op : MapOp) :
    MapInv (runOp s op) ∧
    (∀ n ∈ s.list, n.is_dummy = true → n ∈ (runOp s op).list) ∧
    (∀ b w, s.buckets.getD b none = some w → (runOp s op).buckets.getD b none = some w) := by
  cases op with
  | put k v =>
    simp only [runOp]
    by_cases hg : k = 0 ∨ v = none
    · have h0 : hashmap_put s k v = (none, s) := by rw [hashmap_put, if_pos hg]
      rw [h0]
      exact ⟨hInv, fun n hn _ => hn, fun b w h => h⟩
    · push_neg at hg
      obtain ⟨w, rfl⟩ : ∃ w, v = some w := by
        cases hv : v
        · exact absurd hv hg.2
        · exact ⟨_, rfl⟩
      obtain ⟨c1, c2, c3, c4, c5, c6, c7⟩ := hashmap_put_spec s hInv hcap k w hg.1
      exact ⟨c1, c4, c5⟩
  | get k =>
    simp only [runOp]
    by_cases hk : k = 0
    · have h0 : hashmap_get s k = (none, s) := by rw [hashmap_get, if_pos hk]
      rw [h0]
      exact ⟨hInv, fun n hn _ => hn, fun b w h => h⟩
    · obtain ⟨c1, c2, c3, c4, c5, c6, c7⟩ := hashmap_get_spec s hInv hcap k hk
      exact ⟨c1, fun n hn _ => c4 n hn, c5⟩
  | remove k =>
    simp only [runOp]
    by_cases hk : k = 0
    · have h0 : hashmap_remove s k = (none, s) := by rw [hashmap_remove, if_pos hk]
      rw [h0]
      exact ⟨hInv, fun n hn _ => hn, fun b w h => h⟩
    · obtain ⟨c1, c2, c3, c4, c5⟩ := hashmap_remove_spec s hInv hcap k hk
      exact ⟨c1, c3, c4⟩

/-- Every reachable state whose capacity is within the modelled 2^63
bound satisfies the invariant. -/
theorem inv_reachable (s : HM) (h : Reachable s) (hcap : s.cap ≤ 2 ^ 63) : MapInv s := by
  obtain ⟨ops, hops⟩ := h
  suffices h2 : ∀ ops2 : List MapOp, (runOps ops2).cap ≤ 2 ^ 63 → MapInv (runOps ops2) by
    rw [← hops]
    exact h2 ops (by rw [hops]; exact hcap)
  intro ops2
  induction ops2 using List.reverseRecOn with
  | nil =>
    intro _
    exact inv_create
  | append_singleton ops3 op ih =>
    intro hcap2
    have hrun : runOps (ops3 ++ [op]) = runOp (runOps ops3) op := by
      rw [runOps, List.foldl_append]
      rfl
    rw [hrun] at hcap2 ⊢
    have hcapmid : (runOps ops3).cap ≤ 2 ^ 63 :=
      le_trans (cap_mono (runOps ops3) op) hcap2
    exact (inv_step (runOps ops3) (ih hcapmid) hcapmid op).1

/-! ## EBR reclamation-delay invariant -/

theorem getD_set_eq_gen {α : Type} (l : List α) (i : Nat) (v d : α) (h : i < l.length) :
    (l.set i v).getD i d = v := by
  rw [List.getD_eq_getElem?_getD, List.getElem?_set_self']
  simp [h]

theorem getD_set_ne_gen {α : Type} (l : List α) (i j : Nat) (v d : α) (h : j ≠ i) :
    (l.set i v).getD j d = l.getD j d := by
  rw [List.getD_eq_getElem?_getD, List.getElem?_set_ne (by omega), ← List.getD_eq_getElem?_getD]

theorem getD_mem_gen {α : Type} (l : List α) (i : Nat) (d : α) (h : i < l.length) :
    l.getD i d ∈ l := by
  rw [List.getD_eq_getElem?_getD, List.getElem?_eq_getElem h]
  exact List.getElem_mem h

theorem getD_of_le_gen {α : Type} (l : List α) (i : Nat) (d : α) (h : l.length ≤ i) :
    l.getD i d = d := by
  rw [List.getD_eq_getElem?_getD, List.getElem?_eq_none (by omega)]
  rfl

/-- Operations covered by the amended reclamation-delay guarantee:
everything except `epoch_unregister`, `epoch_destroy` (both of which
drain queues immediately, see the counterexample), and `epoch_retire`
with an invalid thread slot (which frees immediately,
epoch.c:170-174). -/
def eop_safe : EOp → Prop
  | .unregister _ => False
  | .destroy => False
  | .retire slot _ => slot < EPOCH_MAX_THREADS
  | _ => True

/-- Queue shape invariant: each slot has the three retire queues of
`epoch_t`, and an entry on queue `j` was retired at a global epoch
congruent to `j` mod 3 and not exceeding the current global epoch. -/
def equeues_ok (e : EState) : Prop :=
  ∀ sl ∈ e.slots, sl.retire.length = 3 ∧
    ∀ j, j < 3 → ∀ en ∈ sl.retire.getD j [], en.retEpoch ≤ e.global_epoch ∧ en.retEpoch % 3 = j

/-- Every free-callback invocation so far came at least two epochs after
the retire. -/
def efreed_ok (e : EState) : Prop := ∀ rec ∈ e.freed, rec.retEpoch + 2 ≤ rec.freeEpoch

theorem freed_ok_extend (fr : List FreeRec) (q : List RetireEntry) (g2 : Nat)
    (hf : ∀ rec ∈ fr, rec.retEpoch + 2 ≤ rec.freeEpoch)
    (hq : ∀ en ∈ q, en.retEpoch + 2 ≤ g2) :
    ∀ rec ∈ fr ++ free_list g2 q, rec.retEpoch + 2 ≤ rec.freeEpoch := by
  intro rec hrec
  rcases List.mem_append.mp hrec with h1 | h2
  · exact hf rec h1
  · obtain ⟨en, hen, rfl⟩ := List.mem_map.mp h2
    exact hq en hen

/-- The scan of `epoch_register` only flips `active`/`epoch` of one slot:
every slot of the result carries the retire queues of some input slot. -/
theorem register_scan_retire : ∀ (l : List ESlot) (g : Nat) (p : Nat × List ESlot),
    register_scan l g = some p → ∀ sl' ∈ p.2, ∃ sl ∈ l, sl'.retire = sl.retire := by
  intro l
  induction l with
  | nil =>
    intro g p h sl' hs
    rw [register_scan] at h
    simp at h
  | cons sl rest ih =>
    intro g p h sl' hs
    rw [register_scan] at h
    by_cases ha : sl.active = false
    · rw [if_pos ha] at h
      have hp : p = (0, { sl with active := true, epoch := some g } :: rest) :=
        (Option.some.inj h).symm
      subst hp
      rcases List.mem_cons.mp hs with rfl | hmem
      · exact ⟨sl, by simp, rfl⟩
      · exact ⟨sl', by simp [hmem], rfl⟩
    · rw [if_neg ha] at h
      rcases hr : register_scan rest g with _ | ⟨i, rest2⟩
      · rw [hr] at h
        simp at h
      · rw [hr] at h
        have h2 : some (i + 1, sl :: rest2) = some p := h
        have hp : p = (i + 1, sl :: rest2) := (Option.some.inj h2).symm
        subst hp
        rcases List.mem_cons.mp hs with rfl | hmem
        · exact ⟨sl', by simp, rfl⟩
        · obtain ⟨sl0, hm0, he0⟩ := ih g (i, rest2) hr sl' hmem
          exact ⟨sl0, by simp [hm0], he0⟩

theorem getSlot_cases (e : EState) (i : Nat) : getSlot e i ∈ e.slots ∨ getSlot e i = inertSlot := by
  rw [getSlot]
  rcases Nat.lt_or_ge i e.slots.length with h | h
  · exact Or.inl (getD_mem_gen _ _ _ h)
  · exact Or.inr (getD_of_le_gen _ _ _ h)

/-- Shape and bound facts for any slot read, valid or not. -/
theorem slot_facts (e : EState) (h : equeues_ok e) (i : Nat) :
    (getSlot e i).retire.length = 3 ∧
    ∀ j, j < 3 → ∀ en ∈ (getSlot e i).retire.getD j [],
      en.retEpoch ≤ e.global_epoch ∧ en.retEpoch % 3 = j := by
  rcases getSlot_cases e i with hm | hin
  · exact h _ hm
  · rw [hin]
    refine ⟨rfl, ?_⟩
    intro j hj en hen
    interval_cases j <;> simp [inertSlot] at hen

/-- Draining one queue whose entries are all at least two epochs old
preserves both invariant parts; surviving entries come from the original
queues. -/
theorem drain_ok (e0 : EState) (tls si : Nat) (hsi : si < 3)
    (hq : equeues_ok e0) (hf : efreed_ok e0)
    (hstale : ∀ en ∈ (getSlot e0 tls).retire.getD si [],
      en.retEpoch + 2 ≤ e0.global_epoch) :
    equeues_ok { e0 with
      freed := e0.freed ++ free_list e0.global_epoch ((getSlot e0 tls).retire.getD si [])
      slots := e0.slots.set tls
        { getSlot e0 tls with retire := (getSlot e0 tls).retire.set si [] } } ∧
    efreed_ok { e0 with
      freed := e0.freed ++ free_list e0.global_epoch ((getSlot e0 tls).retire.getD si [])
      slots := e0.slots.set tls
        { getSlot e0 tls with retire := (getSlot e0 tls).retire.set si [] } } ∧
    (∀ sl2 ∈ e0.slots.set tls
        { getSlot e0 tls with retire := (getSlot e0 tls).retire.set si [] },
      ∀ j, j < 3 → ∀ en ∈ sl2.retire.getD j [],
        ∃ sl0 ∈ e0.slots, en ∈ sl0.retire.getD j []) := by
  obtain ⟨hlen, hqs⟩ := slot_facts e0 hq tls
  have hmemQ : ∀ sl2 ∈ e0.slots.set tls
      { getSlot e0 tls with retire := (getSlot e0 tls).retire.set si [] },
      ∀ j, j < 3 → ∀ en ∈ sl2.retire.getD j [],
        ∃ sl0 ∈ e0.slots, en ∈ sl0.retire.getD j [] := by
    intro sl2 hm j hj en hen
    rcases List.mem_or_eq_of_mem_set hm with hold | rfl
    · exact ⟨sl2, hold, hen⟩
    · rw [show ({ getSlot e0 tls with
          retire := (getSlot e0 tls).retire.set si [] } : ESlot).retire
        = (getSlot e0 tls).retire.set si [] from rfl] at hen
      by_cases hji : j = si
      · subst hji
        rw [getD_set_eq_gen _ _ _ _ (by rw [hlen]; omega)] at hen
        simp at hen
      · rw [getD_set_ne_gen _ _ _ _ _ hji] at hen
        rcases getSlot_cases e0 tls with hmm | hin
        · exact ⟨_, hmm, hen⟩
        · rw [hin] at hen
          interval_cases j <;> simp [inertSlot] at hen
  refine ⟨?_, ?_, hmemQ⟩
  · intro sl2 hm
    constructor
    · rcases List.mem_or_eq_of_mem_set hm with hold | rfl
      · exact (hq sl2 hold).1
      · show ((getSlot e0 tls).retire.set si []).length = 3
        rw [List.length_set, hlen]
    · intro j hj en hen
      obtain ⟨sl0, hm0, hen0⟩ := hmemQ sl2 hm j hj en hen
      exact (hq sl0 hm0).2 j hj en hen0
  · exact freed_ok_extend _ _ _ hf hstale

/-- `epoch_try_advance` preserves the invariant, never lowers the global
epoch, and leaves only entries retired no later than the pre-advance
epoch. -/
theorem try_advance_spec (e : EState) (tls : Nat) (h1 : equeues_ok e) (h2 : efreed_ok e) :
    equeues_ok (epoch_try_advance e tls) ∧ efreed_ok (epoch_try_advance e tls) ∧
    e.global_epoch ≤ (epoch_try_advance e tls).global_epoch ∧
    (∀ sl2 ∈ (epoch_try_advance e tls).slots, ∀ j, j < 3 →
      ∀ en ∈ sl2.retire.getD j [], en.retEpoch ≤ e.global_epoch ∧ en.retEpoch % 3 = j) := by
  by_cases hall : e.slots.all (caught_up e.global_epoch) = true
  · have heq : epoch_try_advance e tls
        = try_reclaim { e with global_epoch := e.global_epoch + 1 } tls
            (e.global_epoch + 1) := by
      show (if e.slots.all (caught_up e.global_epoch) = true then
          try_reclaim { e with global_epoch := e.global_epoch + 1 } tls (e.global_epoch + 1)
        else e) = _
      rw [if_pos hall]
    rw [heq]
    set E2 : EState := { e with global_epoch := e.global_epoch + 1 } with hE2
    have hq2 : equeues_ok E2 := by
      intro sl hm
      refine ⟨(h1 sl hm).1, ?_⟩
      intro j hj en hen
      have hfact := (h1 sl hm).2 j hj en hen
      exact ⟨by show en.retEpoch ≤ e.global_epoch + 1; omega, hfact.2⟩
    have hf2 : efreed_ok E2 := h2
    by_cases hlt : e.global_epoch + 1 < 2
    · have htr : try_reclaim E2 tls (e.global_epoch + 1) = E2 := by
        rw [try_reclaim, if_pos hlt]
      rw [htr]
      exact ⟨hq2, hf2, by show e.global_epoch ≤ e.global_epoch + 1; omega,
        fun sl2 hm j hj en hen => (h1 sl2 hm).2 j hj en hen⟩
    · by_cases htls : EPOCH_MAX_THREADS ≤ tls
      · have htr : try_reclaim E2 tls (e.global_epoch + 1) = E2 := by
          rw [try_reclaim, if_neg hlt, if_pos htls]
        rw [htr]
        exact ⟨hq2, hf2, by show e.global_epoch ≤ e.global_epoch + 1; omega,
          fun sl2 hm j hj en hen => (h1 sl2 hm).2 j hj en hen⟩
      · have htr : try_reclaim E2 tls (e.global_epoch + 1)
            = { E2 with
                freed := E2.freed ++ free_list E2.global_epoch
                  ((getSlot E2 tls).retire.getD ((e.global_epoch + 1 - 2) % 3) [])
                slots := E2.slots.set tls
                  { getSlot E2 tls with
                    retire := (getSlot E2 tls).retire.set
                        ((e.global_epoch + 1 - 2) % 3) [] } } := by
          rw [try_reclaim, if_neg hlt, if_neg htls]
          rfl
        rw [htr]
        have hE2g : E2.global_epoch = e.global_epoch + 1 := rfl
        have hstale : ∀ en ∈ (getSlot E2 tls).retire.getD ((e.global_epoch + 1 - 2) % 3) [],
            en.retEpoch + 2 ≤ E2.global_epoch := by
          intro en hen
          have hfacts := (slot_facts E2 hq2 tls).2 ((e.global_epoch + 1 - 2) % 3)
            (by omega) en hen
          omega
        obtain ⟨hA, hB, hC⟩ := drain_ok E2 tls ((e.global_epoch + 1 - 2) % 3)
          (by omega) hq2 hf2 hstale
        refine ⟨hA, hB, ?_, ?_⟩
        · show e.global_epoch ≤ E2.global_epoch
          omega
        · intro sl2 hm j hj en hen
          obtain ⟨sl0, hm0, hen0⟩ := hC sl2 hm j hj en hen
          exact (h1 sl0 hm0).2 j hj en hen0
  · have heq : epoch_try_advance e tls = e := by
      show (if e.slots.all (caught_up e.global_epoch) = true then
          try_reclaim { e with global_epoch := e.global_epoch + 1 } tls (e.global_epoch + 1)
        else e) = e
      rw [if_neg hall]
    rw [heq]
    exact ⟨h1, h2, le_refl _, fun sl2 hm j hj en hen => (h1 sl2 hm).2 j hj en hen⟩

/-- Each safe EBR operation preserves the queue and freed-record
invariants. -/
theorem einv_step (e : EState) (h1 : equeues_ok e) (h2 : efreed_ok e) (op : EOp)
    (hop : eop_safe op) :
    equeues_ok (runEOp e op) ∧ efreed_ok (runEOp e op) := by
  cases op with
  | reg =>
    simp only [runEOp]
    have hsplit : register_scan e.slots e.global_epoch = none ∨
        ∃ p, register_scan e.slots e.global_epoch = some p := by
      cases register_scan e.slots e.global_epoch
      · exact Or.inl rfl
      · exact Or.inr ⟨_, rfl⟩
    rcases hsplit with hr | ⟨⟨i, slots2⟩, hr⟩
    · have heq : (epoch_register e).2 = e := by rw [epoch_register, hr]
      rw [heq]
      exact ⟨h1, h2⟩
    · have heq : (epoch_register e).2 = { e with slots := slots2 } := by
        rw [epoch_register, hr]
      rw [heq]
      refine ⟨?_, h2⟩
      intro sl hm
      obtain ⟨sl0, hm0, he0⟩ := register_scan_retire e.slots e.global_epoch (i, slots2) hr sl hm
      refine ⟨by rw [he0]; exact (h1 sl0 hm0).1, ?_⟩
      intro j hj en hen
      rw [he0] at hen
      exact (h1 sl0 hm0).2 j hj en hen
  | unregister s => exact hop.elim
  | destroy => exact hop.elim
  | exit s =>
    simp only [runEOp]
    constructor
    · intro sl hm
      rcases List.mem_or_eq_of_mem_set hm with hold | rfl
      · exact h1 sl hold
      · exact slot_facts e h1 s
    · exact h2
  | retire s p =>
    have hs64 : ¬(EPOCH_MAX_THREADS ≤ s) := by
      have hlt : s < EPOCH_MAX_THREADS := hop
      omega
    simp only [runEOp]
    have heq : epoch_retire_slot e s p = { e with
        slots := e.slots.set s { getSlot e s with
          retire := (getSlot e s).retire.set (e.global_epoch % 3)
              ({ ptr := p, retEpoch := e.global_epoch } ::
                (getSlot e s).retire.getD (e.global_epoch % 3) []) } } := by
      rw [epoch_retire_slot, if_neg hs64]
      rfl
    rw [heq]
    obtain ⟨hl, hqs⟩ := slot_facts e h1 s
    refine ⟨?_, h2⟩
    intro sl hm
    rcases List.mem_or_eq_of_mem_set hm with hold | rfl
    · exact h1 sl hold
    · refine ⟨?_, ?_⟩
      · show ((getSlot e s).retire.set _ _).length = 3
        rw [List.length_set, hl]
      · intro j hj en hen
        rw [show ({ getSlot e s with
            retire := (getSlot e s).retire.set (e.global_epoch % 3)
              ({ ptr := p, retEpoch := e.global_epoch } ::
                (getSlot e s).retire.getD (e.global_epoch % 3) []) } : ESlot).retire
          = (getSlot e s).retire.set (e.global_epoch % 3)
              ({ ptr := p, retEpoch := e.global_epoch } ::
                (getSlot e s).retire.getD (e.global_epoch % 3) []) from rfl] at hen
        by_cases hji : j = e.global_epoch % 3
        · subst hji
          rw [getD_set_eq_gen _ _ _ _ (by rw [hl]; omega)] at hen
          rcases List.mem_cons.mp hen with rfl | hen2
          · exact ⟨le_refl _, rfl⟩
          · exact hqs (e.global_epoch % 3) (by omega) en hen2
        · rw [getD_set_ne_gen _ _ _ _ _ hji] at hen
          exact hqs j hj en hen
  | tryAdvance s =>
    simp only [runEOp]
    obtain ⟨a, b, _, _⟩ := try_advance_spec e s h1 h2
    exact ⟨a, b⟩
  | enter s =>
    simp only [runEOp]
    set E1 : EState := { e with
      slots := e.slots.set s { getSlot e s with epoch := some e.global_epoch } } with hE1
    have hq1 : equeues_ok E1 := by
      intro sl hm
      rcases List.mem_or_eq_of_mem_set hm with hold | rfl
      · exact h1 sl hold
      · exact slot_facts e h1 s
    have hf1 : efreed_ok E1 := h2
    obtain ⟨q1, q2, q3, q4⟩ := try_advance_spec E1 s hq1 hf1
    have hE1g : E1.global_epoch = e.global_epoch := rfl
    set E2 := epoch_try_advance E1 s with hE2x
    have henter : epoch_enter e s =
        (if 2 ≤ e.global_epoch then
          { E2 with
            freed := E2.freed ++ free_list E2.global_epoch
              ((getSlot E2 s).retire.getD ((e.global_epoch - 2) % 3) [])
            slots := E2.slots.set s
              { getSlot E2 s with
                retire := (getSlot E2 s).retire.set ((e.global_epoch - 2) % 3) [] } }
        else E2) := rfl
    rw [henter]
    by_cases hge : 2 ≤ e.global_epoch
    · rw [if_pos hge]
      have hstale : ∀ en ∈ (getSlot E2 s).retire.getD ((e.global_epoch - 2) % 3) [],
          en.retEpoch + 2 ≤ E2.global_epoch := by
        intro en hen
        rcases getSlot_cases E2 s with hmm | hin
        · have hfacts := q4 _ hmm ((e.global_epoch - 2) % 3) (by omega) en hen
          omega
        · rw [hin] at hen
          obtain ⟨j0, hj0, hj0e⟩ : ∃ j0, j0 < 3 ∧ (e.global_epoch - 2) % 3 = j0 :=
            ⟨_, by omega, rfl⟩
          rw [hj0e] at hen
          interval_cases j0 <;> simp [inertSlot] at hen
      obtain ⟨hA, hB, hC⟩ := drain_ok E2 s ((e.global_epoch - 2) % 3) (by omega) q1 q2 hstale
      exact ⟨hA, hB⟩
    · rw [if_neg hge]
      exact ⟨q1, q2⟩

/-- The freshly initialized EBR state satisfies both invariant parts. -/
theorem einv_init : equeues_ok epoch_init ∧ efreed_ok epoch_init := by
  constructor
  · intro sl hm
    have hsl : sl = { active := false, epoch := some 0, retire := [[], [], []] } :=
      (List.mem_replicate.mp hm).2
    rw [hsl]
    refine ⟨rfl, ?_⟩
    intro j hj en hen
    interval_cases j <;> simp at hen
  · intro rec hrec
    simp [epoch_init] at hrec

/-- C3 (amended): along any sequence of `epoch_register`, `epoch_enter`,
`epoch_exit`, valid-slot `epoch_retire` and `epoch_try_advance` calls —
that is, excluding `epoch_unregister`, `epoch_destroy` and retires
without a registered slot, which free immediately — every pointer handed
to the free callback was retired at least two global-epoch advances
earlier. -/
theorem retire_free_epoch_gap (ops : List EOp) (hsafe : ∀ op ∈ ops, eop_safe op) :
    ∀ rec ∈ (runEOps ops).freed, rec.retEpoch + 2 ≤ rec.freeEpoch := by
  suffices h : ∀ ops2 : List EOp, (∀ op ∈ ops2, eop_safe op) →
      equeues_ok (runEOps ops2) ∧ efreed_ok (runEOps ops2) from (h ops hsafe).2
  intro ops2
  induction ops2 using List.reverseRecOn with
  | nil =>
    intro _
    exact einv_init
  | append_singleton ops3 op ih =>
    intro hs
    have hrun : runEOps (ops3 ++ [op]) = runEOp (runEOps ops3) op := by
      rw [runEOps, List.foldl_append]
      rfl
    rw [hrun]
    obtain ⟨a, b⟩ := ih (fun o hm => hs o (by simp [hm]))
    exact einv_step _ a b op (hs op (by simp))

/-- Witness: a register/retire/advance/advance/enter run satisfies the
side conditions, so the guarantee applies to it. -/
theorem retire_free_epoch_gap_witness :
    (∀ op ∈ [EOp.reg, EOp.retire 0 100, EOp.tryAdvance 0, EOp.tryAdvance 0, EOp.enter 0],
      eop_safe op) ∧
    (∀ rec ∈ (runEOps [EOp.reg, EOp.retire 0 100, EOp.tryAdvance 0, EOp.tryAdvance 0,
        EOp.enter 0]).freed,
      rec.retEpoch + 2 ≤ rec.freeEpoch) := by
  have hsafe : ∀ op ∈ [EOp.reg, EOp.retire 0 100, EOp.tryAdvance 0, EOp.tryAdvance 0,
      EOp.enter 0], eop_safe op := by
    intro op hop
    simp at hop
    rcases hop with rfl | rfl | rfl | rfl
    · trivial
    · show 0 < EPOCH_MAX_THREADS
      decide
    · trivial
    · trivial
  exact ⟨hsafe, retire_free_epoch_gap _ hsafe⟩

/-- C7: in every reachable map state (capacity within the modelled
bound), walking the global list from the head yields non-decreasing
split-order keys; every regular node's `so_key` has low bit 1 and every
dummy's has low bit 0. -/
theorem split_order_sorted_and_parity (s : HM) (hreach : Reachable s)
    (hcap : s.cap ≤ 2 ^ 63) :
    s.list.Chain' soLe ∧
    ∀ n ∈ s.list, (n.is_dummy = false → n.so_key % 2 = 1) ∧
      (n.is_dummy = true → n.so_key % 2 = 0) := by
  have hInv := inv_reachable s hreach hcap
  refine ⟨List.Pairwise.chain' hInv.sorted, ?_⟩
  intro n hn
  exact ⟨(inv_parity s hInv hcap n hn).2, (inv_parity s hInv hcap n hn).1⟩

/-- Witness for the sortedness/parity invariant on a concrete
put/put/remove run. -/
theorem split_order_sorted_and_parity_witness :
    (Reachable (runOps [MapOp.put 1 (some 5), MapOp.put 2 (some 6), MapOp.remove 1]) ∧
      (runOps [MapOp.put 1 (some 5), MapOp.put 2 (some 6), MapOp.remove 1]).cap ≤ 2 ^ 63) ∧
    ((runOps [MapOp.put 1 (some 5), MapOp.put 2 (some 6), MapOp.remove 1]).list.Chain' soLe ∧
      ∀ n ∈ (runOps [MapOp.put 1 (some 5), MapOp.put 2 (some 6), MapOp.remove 1]).list,
        (n.is_dummy = false → n.so_key % 2 = 1) ∧ (n.is_dummy = true → n.so_key % 2 = 0)) :=
  ⟨⟨⟨[MapOp.put 1 (some 5), MapOp.put 2 (some 6), MapOp.remove 1], rfl⟩, by decide⟩,
    split_order_sorted_and_parity _
      ⟨[MapOp.put 1 (some 5), MapOp.put 2 (some 6), MapOp.remove 1], rfl⟩ (by decide)⟩

/-- C10: no operation ever unlinks a dummy node or clears a bucket slot:
dummies stay in the global list, set slots keep their value, every set
slot points at a live dummy of the right split-order key, and a
successful remove only ever unlinks a regular node. -/
theorem dummies_persist_and_slots_stable (s : HM) (hreach : Reachable s)
    (hcap : s.cap ≤ 2 ^ 63) (op : MapOp) :
    (∀ n ∈ s.list, n.is_dummy = true → n ∈ (runOp s op).list) ∧
    (∀ b w, s.buckets.getD b none = some w → (runOp s op).buckets.getD b none = some w) ∧
    (∀ b w, (runOp s op).buckets.getD b none = some w →
      ∃ n ∈ (runOp s op).list, n.id = w ∧ n.is_dummy = true ∧ n.so_key = make_so_dummy b) ∧
    (∀ k x, (hashmap_remove s k).1 = some x →
      ∃ n ∈ s.list, n.is_dummy = false ∧ n.value = some x) := by
  have hInv := inv_reachable s hreach hcap
  obtain ⟨i1, i2, i3⟩ := inv_step s hInv hcap op
  refine ⟨i2, i3, i1.bucket_dummy, ?_⟩
  intro k x hx
  by_cases hk : k = 0
  · rw [hashmap_remove, if_pos hk] at hx
    simp at hx
  · obtain ⟨r1, r2, r3, r4, rdich⟩ := hashmap_remove_spec s hInv hcap k hk
    rcases rdich with ⟨m, xs, hh, hmso, hmd, hmk, hret, hcnt, hhigh⟩ | ⟨hret, hcnt2, hmiss⟩
    · rw [hret] at hx
      exact ⟨m, (List.dropWhile_suffix (below (make_so_regular k))).subset
        (show m ∈ highSeg s.list (make_so_regular k) by rw [hh]; simp), hmd, hx⟩
    · rw [hret] at hx
      simp at hx

/-- Witness for dummy persistence: a put on the fresh map. -/
theorem dummies_persist_and_slots_stable_witness :
    (Reachable (runOps ([] : List MapOp)) ∧ (runOps ([] : List MapOp)).cap ≤ 2 ^ 63) ∧
    ((∀ n ∈ (runOps ([] : List MapOp)).list, n.is_dummy = true →
        n ∈ (runOp (runOps ([] : List MapOp)) (MapOp.put 1 (some 5))).list) ∧
      (∀ b w, (runOps ([] : List MapOp)).buckets.getD b none = some w →
        (runOp (runOps ([] : List MapOp)) (MapOp.put 1 (some 5))).buckets.getD b none = some w) ∧
      (∀ b w, (runOp (runOps ([] : List MapOp)) (MapOp.put 1 (some 5))).buckets.getD b none
          = some w →
        ∃ n ∈ (runOp (runOps ([] : List MapOp)) (MapOp.put 1 (some 5))).list,
          n.id = w ∧ n.is_dummy = true ∧ n.so_key = make_so_dummy b) ∧
      (∀ k x, (hashmap_remove (runOps ([] : List MapOp)) k).1 = some x →
        ∃ n ∈ (runOps ([] : List MapOp)).list, n.is_dummy = false ∧ n.value = some x)) :=
  ⟨⟨⟨[], rfl⟩, by decide⟩,
    dummies_persist_and_slots_stable _ ⟨[], rfl⟩ (by decide) (MapOp.put 1 (some 5))⟩

/-- C4: in any reachable state, after `put(k, v)` a `remove(k)` returns
`v` and decrements the count by exactly one, and a following `get(k)`
returns NULL. -/
theorem put_then_remove_then_get (s : HM) (hreach : Reachable s) (hcap : s.cap ≤ 2 ^ 62)
    (k v : Nat) (hk : k ≠ 0) :
    (hashmap_remove (hashmap_put s k (some v)).2 k).1 = some v ∧
    (hashmap_remove (hashmap_put s k (some v)).2 k).2.count + 1
      = (hashmap_put s k (some v)).2.count ∧
    (hashmap_get (hashmap_remove (hashmap_put s k (some v)).2 k).2 k).1 = none := by
  have hcap63 : s.cap ≤ 2 ^ 63 := by
    have h1 : (2 : Nat) ^ 62 ≤ 2 ^ 63 := by norm_num
    omega
  have hInv := inv_reachable s hreach hcap63
  obtain ⟨c1, c2, c3, c4, c5, ⟨m, rest, hm, hmso, hmd, hmk, hmv⟩, _⟩ :=
    hashmap_put_spec s hInv hcap63 k v hk
  have hcap1 : (hashmap_put s k (some v)).2.cap ≤ 2 ^ 63 := by
    have h2 : (2 : Nat) * 2 ^ 62 = 2 ^ 63 := by norm_num
    omega
  obtain ⟨r1, r2, r3, r4, rdich⟩ :=
    hashmap_remove_spec (hashmap_put s k (some v)).2 c1 hcap1 k hk
  rcases rdich with ⟨x, xs, hh, hxso, hxd, hxk, hret, hcnt, hhigh⟩ | ⟨hret, hcnt, hmiss⟩
  · rw [hm] at hh
    have hx : m = x ∧ rest = xs := by simpa using hh
    refine ⟨by rw [hret, ← hx.1, hmv], hcnt, ?_⟩
    have hcap2 : (hashmap_remove (hashmap_put s k (some v)).2 k).2.cap ≤ 2 ^ 63 := by
      rw [r2]
      exact hcap1
    obtain ⟨g1, g2, g3, g4, g5, g6, g7⟩ :=
      hashmap_get_spec (hashmap_remove (hashmap_put s k (some v)).2 k).2 r1 hcap2 k hk
    refine g7 ?_
    intro y ys hyy hcon
    have hxs : xs = y :: ys := by
      rw [hhigh] at hyy
      exact hyy
    have hchain : List.Chain' adjOK (m :: y :: ys) := by
      have h0 := c1.adj.suffix
        (show highSeg (hashmap_put s k (some v)).2.list (make_so_regular k)
            <:+ (hashmap_put s k (some v)).2.list from List.dropWhile_suffix _)
      rw [hm, hx.2, hxs] at h0
      exact h0
    have hady : adjOK m y := (List.chain'_cons.mp hchain).1
    have hkeys := hady (by rw [hmso, hcon.1])
    exact hkeys.2.2 (by rw [hmk, hcon.2.2])
  · exact absurd ⟨hmso, hmd, hmk⟩ (hmiss m rest hm)

/-- Witness for put-remove-get on the fresh map with key 7, value 42. -/
theorem put_then_remove_then_get_witness :
    (Reachable (runOps ([] : List MapOp)) ∧ (runOps ([] : List MapOp)).cap ≤ 2 ^ 62 ∧
      (7 : Nat) ≠ 0) ∧
    ((hashmap_remove (hashmap_put (runOps ([] : List MapOp)) 7 (some 42)).2 7).1 = some 42 ∧
      (hashmap_remove (hashmap_put (runOps ([] : List MapOp)) 7 (some 42)).2 7).2.count + 1
        = (hashmap_put (runOps ([] : List MapOp)) 7 (some 42)).2.count ∧
      (hashmap_get (hashmap_remove (hashmap_put (runOps ([] : List MapOp)) 7
        (some 42)).2 7).2 7).1 = none) :=
  ⟨⟨⟨[], rfl⟩, by decide, by decide⟩,
    put_then_remove_then_get _ ⟨[], rfl⟩ (by decide) 7 42 (by decide)⟩

/-- C5: in any reachable state, a second `put(k, v2)` after `put(k, v1)`
returns `v1`, leaves the count unchanged, and a following `get(k)`
returns `v2`. -/
theorem put_twice_updates_in_place (s : HM) (hreach : Reachable s)
    (hcap : s.cap ≤ 2 ^ 62) (k v1 v2 : Nat) (hk : k ≠ 0) :
    (hashmap_put (hashmap_put s k (some v1)).2 k (some v2)).1 = some v1 ∧
    (hashmap_get (hashmap_put (hashmap_put s k (some v1)).2 k (some v2)).2 k).1 = some v2 ∧
    (hashmap_put (hashmap_put s k (some v1)).2 k (some v2)).2.count
      = (hashmap_put s k (some v1)).2.count := by
  have hcap63 : s.cap ≤ 2 ^ 63 := by
    have h1 : (2 : Nat) ^ 62 ≤ 2 ^ 63 := by norm_num
    omega
  have hInv := inv_reachable s hreach hcap63
  obtain ⟨c1, c2, c3, c4, c5, ⟨m, rest, hm, hmso, hmd, hmk, hmv⟩, _⟩ :=
    hashmap_put_spec s hInv hcap63 k v1 hk
  have hcap1 : (hashmap_put s k (some v1)).2.cap ≤ 2 ^ 63 := by
    have h2 : (2 : Nat) * 2 ^ 62 = 2 ^ 63 := by norm_num
    omega
  obtain ⟨d1, d2, d3, d4, d5, d6, ddich⟩ :=
    hashmap_put_spec (hashmap_put s k (some v1)).2 c1 hcap1 k v2 hk
  rcases ddich with ⟨x, xs, hh, hxso, hxd, hxk, hret, hcnt, hcapeq, hhigh⟩ |
    ⟨hret, hcnt, hmiss⟩
  · rw [hm] at hh
    have hx : m = x ∧ rest = xs := by simpa using hh
    refine ⟨by rw [hret, ← hx.1, hmv], ?_, hcnt⟩
    have hcap2 : (hashmap_put (hashmap_put s k (some v1)).2 k (some v2)).2.cap ≤ 2 ^ 63 := by
      rw [hcapeq]
      exact hcap1
    obtain ⟨g1, g2, g3, g4, g5, g6, g7⟩ :=
      hashmap_get_spec (hashmap_put (hashmap_put s k (some v1)).2 k (some v2)).2 d1 hcap2 k hk
    exact g6 { x with value := some v2 } xs hhigh hxso hxd hxk
  · exact absurd ⟨hmso, hmd, hmk⟩ (hmiss m rest hm)

/-- Witness for put-put-get on the fresh map with key 7. -/
theorem put_twice_updates_in_place_witness :
    (Reachable (runOps ([] : List MapOp)) ∧ (runOps ([] : List MapOp)).cap ≤ 2 ^ 62 ∧
      (7 : Nat) ≠ 0) ∧
    ((hashmap_put (hashmap_put (runOps ([] : List MapOp)) 7 (some 1)).2 7 (some 2)).1
        = some 1 ∧
      (hashmap_get (hashmap_put (hashmap_put (runOps ([] : List MapOp)) 7
        (some 1)).2 7 (some 2)).2 7).1 = some 2 ∧
      (hashmap_put (hashmap_put (runOps ([] : List MapOp)) 7 (some 1)).2 7 (some 2)).2.count
        = (hashmap_put (runOps ([] : List MapOp)) 7 (some 1)).2.count) :=
  ⟨⟨⟨[], rfl⟩, by decide, by decide⟩,
    put_twice_updates_in_place _ ⟨[], rfl⟩ (by decide) 7 1 2 (by decide)⟩
